import Mathlib

/-!
Verification of the concurrent repository-version resolution pipeline
(`data_collection/collect/get_version.py`).

The Python source is shallowly embedded: pure string/path manipulation is
translated to executable Lean functions over `String`/`List Char`; filesystem
and external-process behaviour (git clone/checkout/describe, directory
removal) is supplied by an explicit oracle (`Env`, `FS`) and the side effects
a run performs are recorded as an explicit trace of `Effect` events.
Unicode decimal digits (Python `\d`) are modelled as ASCII digits.
-/

/-! ### Characters and Python `str.strip` -/

/-- Decimal digit test, modelling `\d` of the Python regex (`re`) engine
(restricted to ASCII digits). -/
def isDig (c : Char) : Bool := c.isDigit

/-- The six ASCII whitespace characters removed by Python `str.strip()`. -/
def isPySpace (c : Char) : Bool :=
  c = ' ' || c = '\t' || c = '\n' || c = '\r' || c = '\x0b' || c = '\x0c'

/-- Python `s.strip()`: drop leading and trailing whitespace. -/
def pyStrip (s : String) : String :=
  ⟨((s.data.dropWhile isPySpace).reverse.dropWhile isPySpace).reverse⟩

/-! ### The regex `(\d+\.\d+)(?:\.\d+)?` of `get_version_by_git`

`re.search` tries each start position left to right; at a given position the
greedy `\d+` takes the maximal digit run (shortening it can never expose the
required `'.'`, since every dropped character is a digit), so a successful
match at a position returns, as group 1, the maximal digit run there, a dot,
and the following maximal digit run. `matchAt` is that per-position attempt
and `searchVersion` the left-to-right scan; both return group 1. -/

/-- Attempt of the pattern `(\d+\.\d+)` at the head of `cs`; returns group 1
(the trailing optional `(?:\.\d+)?` never changes group 1). -/
def matchAt (cs : List Char) : Option (List Char) :=
  let d1 := cs.takeWhile isDig
  match cs.dropWhile isDig with
  | c :: rest2 =>
    if d1.isEmpty then none
    else if c = '.' then
      let d2 := rest2.takeWhile isDig
      if d2.isEmpty then none else some (d1 ++ '.' :: d2)
    else none
  | [] => none

/-- `re.search(r"(\d+\.\d+)(?:\.\d+)?", s)`, returning `match.group(1)`:
try `matchAt` at every start position, leftmost first. -/
def searchVersion : List Char → Option (List Char)
  | [] => none
  | c :: cs =>
    match matchAt (c :: cs) with
    | some v => some v
    | none => searchVersion cs

/-- Checker for the spec pattern `^\d+\.\d+$`: one nonempty digit run, a
dot, a second nonempty digit run, nothing else. -/
def isFullVersion (cs : List Char) : Bool :=
  match cs.dropWhile isDig with
  | c :: rest2 =>
    !(cs.takeWhile isDig).isEmpty && (c = '.') &&
      !(rest2.takeWhile isDig).isEmpty && (rest2.dropWhile isDig).isEmpty
  | [] => false

/-- Declarative reading of "the describe output matches the pattern
`<major>.<minor>[.<patch>]`" (as the spec's own scenarios use it, i.e. as a
`re.search`-style containment): some substring is a nonempty digit run, a
dot and a nonempty digit run.  Containing `\d+\.\d+\.\d+` implies containing
`\d+\.\d+`, so the optional patch component adds nothing. -/
def containsMajorMinor (cs : List Char) : Prop :=
  ∃ pre d1 d2 post, cs = pre ++ d1 ++ '.' :: d2 ++ post ∧
    d1 ≠ [] ∧ d2 ≠ [] ∧ d1.all isDig = true ∧ d2.all isDig = true

/-- Errors a single task's processing can hit; named after the spec's
taxonomy.  `unrecognizedVersion` is the code's
`RuntimeError(f"Unrecognized version: ...")`. -/
inductive TaskError where
  | missingCacheEntry
  | materializeFailed
  | configFailed
  | checkoutFailed
  | notADirectory
  | describeFailed
  | unrecognizedVersion
  | stagingFailed
  deriving Repr, DecidableEq

/-- Lines 45–50 of `get_version_by_git`: strip the `git describe --tags`
stdout, search it for `(\d+\.\d+)(?:\.\d+)?`, return group 1 or raise. -/
def parseVersionOut (stdout : String) : Except TaskError String :=
  match searchVersion (pyStrip stdout).data with
  | some v => .ok ⟨v⟩
  | none => .error .unrecognizedVersion

/-! #### Lemmas about takeWhile/dropWhile decompositions -/

lemma takeWhile_app_stop {p : Char → Bool} {l1 : List Char} {c : Char}
    (l2 : List Char) (h1 : l1.all p = true) (h2 : p c = false) :
    (l1 ++ c :: l2).takeWhile p = l1 := by
  induction l1 with
  | nil => simp [List.takeWhile, h2]
  | cons a t ih =>
    simp only [List.all_cons, Bool.and_eq_true] at h1
    simp [List.takeWhile, h1.1, ih h1.2]

lemma dropWhile_app_stop {p : Char → Bool} {l1 : List Char} {c : Char}
    (l2 : List Char) (h1 : l1.all p = true) (h2 : p c = false) :
    (l1 ++ c :: l2).dropWhile p = c :: l2 := by
  induction l1 with
  | nil => simp [List.dropWhile, h2]
  | cons a t ih =>
    simp only [List.all_cons, Bool.and_eq_true] at h1
    simp [List.dropWhile, h1.1, ih h1.2]

lemma takeWhile_of_all {p : Char → Bool} {l : List Char}
    (h : l.all p = true) : l.takeWhile p = l := by
  induction l with
  | nil => rfl
  | cons a t ih =>
    simp only [List.all_cons, Bool.and_eq_true] at h
    simp [List.takeWhile, h.1, ih h.2]

lemma dropWhile_of_all {p : Char → Bool} {l : List Char}
    (h : l.all p = true) : l.dropWhile p = [] := by
  induction l with
  | nil => rfl
  | cons a t ih =>
    simp only [List.all_cons, Bool.and_eq_true] at h
    simp [List.dropWhile, h.1, ih h.2]

lemma all_takeWhile (p : Char → Bool) (l : List Char) :
    (l.takeWhile p).all p = true := by
  induction l with
  | nil => simp
  | cons a t ih =>
    by_cases h : p a = true
    · simp [List.takeWhile, h, ih]
    · simp only [Bool.not_eq_true] at h
      simp [List.takeWhile, h]

/-- A successful `matchAt` exhibits the digit-dot-digit decomposition at the
head of the input. -/
lemma matchAt_eq_some {cs v : List Char} (h : matchAt cs = some v) :
    ∃ d1 d2 rest, cs = d1 ++ '.' :: (d2 ++ rest) ∧ d1 ≠ [] ∧ d2 ≠ [] ∧
      d1.all isDig = true ∧ d2.all isDig = true ∧ v = d1 ++ '.' :: d2 := by
  simp only [matchAt] at h
  split at h
  · next c rest2 hdr =>
    split at h
    · exact absurd h (by simp)
    · next he1 =>
      split at h
      · next hc =>
        split at h
        · exact absurd h (by simp)
        · next he2 =>
          subst hc
          simp only [Option.some.injEq] at h
          refine ⟨cs.takeWhile isDig, rest2.takeWhile isDig, rest2.dropWhile isDig,
            ?_, ?_, ?_, all_takeWhile _ _, all_takeWhile _ _, h.symm⟩
          · rw [List.takeWhile_append_dropWhile]
            conv_lhs => rw [← List.takeWhile_append_dropWhile isDig cs]
            rw [hdr]
          · simpa [List.isEmpty_iff] using he1
          · simpa [List.isEmpty_iff] using he2
      · exact absurd h (by simp)
  · exact absurd h (by simp)

/-- If the input starts with a digit-dot-digit decomposition, `matchAt`
succeeds. -/
lemma matchAt_isSome_app {d1 d2 post : List Char}
    (h1 : d1 ≠ []) (h2 : d1.all isDig = true)
    (h3 : d2 ≠ []) (h4 : d2.all isDig = true) :
    (matchAt (d1 ++ '.' :: (d2 ++ post))).isSome = true := by
  have hdot : isDig '.' = false := by decide
  unfold matchAt
  simp only
  rw [takeWhile_app_stop (d2 ++ post) h2 hdot,
      dropWhile_app_stop (d2 ++ post) h2 hdot]
  have he1 : d1.isEmpty = false := by
    cases d1 with
    | nil => exact absurd rfl h1
    | cons a t => rfl
  have he2 : ((d2 ++ post).takeWhile isDig).isEmpty = false := by
    cases d2 with
    | nil => exact absurd rfl h3
    | cons b t2 =>
      simp only [List.all_cons, Bool.and_eq_true] at h4
      simp [List.takeWhile, h4.1]
  simp [he1, he2]

lemma searchVersion_eq_none_iff (cs : List Char) :
    searchVersion cs = none ↔ ∀ i, matchAt (cs.drop i) = none := by
  induction cs with
  | nil =>
    simp only [searchVersion, List.drop_nil, true_iff]
    intro i; rfl
  | cons c cs ih =>
    constructor
    · intro h i
      unfold searchVersion at h
      cases hm : matchAt (c :: cs) with
      | some v => rw [hm] at h; simp at h
      | none =>
        rw [hm] at h
        cases i with
        | zero => exact hm
        | succ j => exact (ih.mp h) j
    · intro h
      unfold searchVersion
      have h0 := h 0
      simp only [List.drop_zero] at h0
      rw [h0]
      exact ih.mpr (fun i => h (i + 1))

lemma searchVersion_eq_some {cs v : List Char} (h : searchVersion cs = some v) :
    ∃ i, matchAt (cs.drop i) = some v := by
  induction cs with
  | nil => simp [searchVersion] at h
  | cons c cs ih =>
    unfold searchVersion at h
    cases hm : matchAt (c :: cs) with
    | some w =>
      rw [hm] at h
      exact ⟨0, by simpa using hm.trans (by simpa using h)⟩
    | none =>
      rw [hm] at h
      obtain ⟨i, hi⟩ := ih h
      exact ⟨i + 1, hi⟩

/-- The scan fails exactly on strings containing no `\d+\.\d+` substring. -/
lemma searchVersion_none_iff_not_contains (cs : List Char) :
    searchVersion cs = none ↔ ¬ containsMajorMinor cs := by
  constructor
  · intro h hcon
    obtain ⟨pre, d1, d2, post, hcs, h1, h2, h3, h4⟩ := hcon
    have hnone := (searchVersion_eq_none_iff cs).mp h pre.length
    have hdrop : cs.drop pre.length = d1 ++ '.' :: (d2 ++ post) := by
      rw [hcs]
      have : pre ++ d1 ++ '.' :: d2 ++ post = pre ++ (d1 ++ '.' :: (d2 ++ post)) := by
        simp
      rw [this, List.drop_left]
    rw [hdrop] at hnone
    have := @matchAt_isSome_app d1 d2 post h1 h3 h2 h4
    rw [hnone] at this
    simp at this
  · intro h
    cases hs : searchVersion cs with
    | none => rfl
    | some v =>
      exfalso
      obtain ⟨i, hi⟩ := searchVersion_eq_some hs
      obtain ⟨d1, d2, rest, hdec, h1, h2, h3, h4, _⟩ := matchAt_eq_some hi
      refine h ⟨cs.take i, d1, d2, rest, ?_, h1, h2, h3, h4⟩
      conv_lhs => rw [← List.take_append_drop i cs]
      rw [hdec]
      simp [List.append_assoc]

/-- Nonempty digit run, dot, nonempty digit run is exactly `^\d+\.\d+$`. -/
lemma isFullVersion_app {d1 d2 : List Char} (h1 : d1 ≠ []) (h2 : d2 ≠ [])
    (h3 : d1.all isDig = true) (h4 : d2.all isDig = true) :
    isFullVersion (d1 ++ '.' :: d2) = true := by
  have hdot : isDig '.' = false := by decide
  have e1 : (d1 ++ '.' :: d2).dropWhile isDig = '.' :: d2 :=
    dropWhile_app_stop d2 h3 hdot
  have e2 : (d1 ++ '.' :: d2).takeWhile isDig = d1 :=
    takeWhile_app_stop d2 h3 hdot
  have e3 : d2.takeWhile isDig = d2 := takeWhile_of_all h4
  have e4 : d2.dropWhile isDig = [] := dropWhile_of_all h4
  obtain ⟨a, t, rfl⟩ : ∃ a t, d1 = a :: t := by
    cases d1 with
    | nil => exact absurd rfl h1
    | cons a t => exact ⟨a, t, rfl⟩
  obtain ⟨b, t2, rfl⟩ : ∃ b t2, d2 = b :: t2 := by
    cases d2 with
    | nil => exact absurd rfl h2
    | cons b t2 => exact ⟨b, t2, rfl⟩
  simp only [List.cons_append] at e1 e2
  simp [isFullVersion, e1, e2, e3, e4]

/-- Successful scans return a string of the exact shape `^\d+\.\d+$`. -/
lemma searchVersion_some_isFullVersion {cs v : List Char}
    (h : searchVersion cs = some v) : isFullVersion v = true := by
  obtain ⟨i, hi⟩ := searchVersion_eq_some h
  obtain ⟨d1, d2, rest, _, h1, h2, h3, h4, hv⟩ := matchAt_eq_some hi
  subst hv
  exact isFullVersion_app h1 h2 h3 h4

/-! ### Path manipulation (`os.path`, POSIX) and serialization paths -/

/-- Index of the last occurrence of `c` in `cs` (`str.rfind`, as an
`Option Nat` instead of `-1` for absence). -/
def rlastIdx (c : Char) : List Char → Option Nat
  | [] => none
  | x :: xs =>
    match rlastIdx c xs with
    | some i => some (i + 1)
    | none => if x = c then some 0 else none

/-- Python `s.endswith(t)`: the last `len(t)` characters equal `t`. -/
def endsWithL (p t : List Char) : Bool :=
  decide (p.drop (p.length - t.length) = t)

/-- The `path.endswith((".jsonl", ".jsonl.all"))` check used by both
`get_instances` (line 53) and `save_results` (line 150). -/
def endsJsonl (p : String) : Bool :=
  endsWithL p.data ".jsonl".data || endsWithL p.data ".jsonl.all".data

/-- `os.path.splitext` (POSIX): split before the last dot, provided that dot
lies in the basename and some character of the basename before it is not
itself a dot (leading-dot filenames have no extension). -/
def splitext (p : String) : String × String :=
  let cs := p.data
  match rlastIdx '.' cs with
  | none => (p, "")
  | some d =>
    let sepIdx : Nat :=
      match rlastIdx '/' cs with
      | some s => s + 1
      | none => 0
    if (List.range d).any (fun f => decide (sepIdx ≤ f) && decide (cs.getD f '.' ≠ '.')) then
      (⟨cs.take d⟩, ⟨cs.drop d⟩)
    else (p, "")

/-- `os.path.dirname` (POSIX): everything up to the last separator, with
trailing separators stripped unless the head is all separators. -/
def dirname (p : String) : String :=
  match rlastIdx '/' p.data with
  | none => ""
  | some i =>
    let head := p.data.take (i + 1)
    if head.all (· = '/') then ⟨head⟩
    else ⟨(head.reverse.dropWhile (· = '/')).reverse⟩

/-- `generate_output_path` (lines 158–160): insert `suffix` between the
`splitext` base and extension of the input path. -/
def generate_output_path (instance_path : String) (suffix : String) : String :=
  (splitext instance_path).1 ++ suffix ++ (splitext instance_path).2

/-- Records are modelled as ordered string-to-string association lists
(Python `dict`s of the task JSON objects, with opaque values as strings). -/
abbrev Dict := List (String × String)

/-- Serialization format: line-delimited JSON vs a single JSON array. -/
inductive Style where
  | lines
  | array
  deriving Repr, DecidableEq

/-- Input parse format of `get_instances` (lines 52–57). -/
def inputStyle (instance_path : String) : Style :=
  if endsJsonl instance_path then .lines else .array

/-- Serialization format chosen by `save_results` (line 150) from the
output path it is handed. -/
def outputStyle (output_path : String) : Style :=
  if endsJsonl output_path then .lines else .array

/-- The one environment-independent failure of `save_results` line 149:
`os.makedirs("", exist_ok=True)` raises `FileNotFoundError` when the output
path has an empty dirname. -/
inductive SaveError where
  | makedirsEmptyDirname
  deriving Repr, DecidableEq

/-- `save_results` (lines 148–156): create the parent directory, then write
either one JSON line per record or a single indented array.  `dumps` and
`dumpsArr` stand for `json.dumps` on a record and on the whole list.  The
returned strings are the chunks written to the file, in order; an error
means the exception fired before any output was written. -/
def save_results (dumps : Dict → String) (dumpsArr : List Dict → String)
    (results : List Dict) (output_path : String) : Except SaveError (List String) :=
  if dirname output_path = "" then .error .makedirsEmptyDirname
  else if endsJsonl output_path then .ok (results.map (fun r => dumps r ++ "\n"))
  else .ok [dumpsArr results]

/-- Lines 196–203 of `main`: write the successes artifact, then the failures
artifact only when at least one failure exists.  Returns the
(path, write outcome) pairs in order. -/
def mainSaveArtifacts (dumps : Dict → String) (dumpsArr : List Dict → String)
    (results failures : List Dict) (instance_path : String) :
    List (String × Except SaveError (List String)) :=
  let output_path := generate_output_path instance_path "_versions"
  let first := (output_path, save_results dumps dumpsArr results output_path)
  if failures.isEmpty then [first]
  else
    let fail_path := generate_output_path instance_path "_failures"
    [first, (fail_path, save_results dumps dumpsArr failures fail_path)]

/-! #### Path lemmas -/

lemma rlastIdx_eq_none_of_not_mem {c : Char} {cs : List Char} (h : c ∉ cs) :
    rlastIdx c cs = none := by
  induction cs with
  | nil => rfl
  | cons x xs ih =>
    simp only [List.mem_cons, not_or] at h
    simp [rlastIdx, ih h.2, Ne.symm h.1]

lemma rlastIdx_append_some {c : Char} {l2 : List Char} {j : Nat}
    (l1 : List Char) (h : rlastIdx c l2 = some j) :
    rlastIdx c (l1 ++ l2) = some (l1.length + j) := by
  induction l1 with
  | nil => simpa using h
  | cons x xs ih =>
    rw [List.cons_append]
    unfold rlastIdx
    rw [ih]
    simp only [List.length_cons, Option.some.injEq]
    omega

lemma drop_append_len {l1 l2 : List Char} (n : Nat) :
    (l1 ++ l2).drop (l1.length + n) = l2.drop n := by
  induction l1 with
  | nil => simp
  | cons x xs ih =>
    have harith : xs.length + 1 + n = (xs.length + n) + 1 := by omega
    rw [List.cons_append, List.length_cons, harith, List.drop_succ_cons, ih]

/-- `endsWith` only looks at the final block once that block is at least as
long as the probe. -/
lemma endsWithL_append {l1 l2 t : List Char} (h : t.length ≤ l2.length) :
    endsWithL (l1 ++ l2) t = endsWithL l2 t := by
  unfold endsWithL
  have : (l1 ++ l2).length - t.length = l1.length + (l2.length - t.length) := by
    simp only [List.length_append]; omega
  rw [this, drop_append_len]

lemma endsJsonl_append {x y : String} (h : 10 ≤ y.data.length) :
    endsJsonl (x ++ y) = endsJsonl y := by
  have hd : (x ++ y).data = x.data ++ y.data := by
    cases x; cases y; rfl
  have h6 : (".jsonl".data).length ≤ y.data.length := by
    have e : (".jsonl".data).length = 6 := rfl
    omega
  have h10 : (".jsonl.all".data).length ≤ y.data.length := by
    have e : (".jsonl.all".data).length = 10 := rfl
    omega
  unfold endsJsonl
  rw [hd, endsWithL_append h6, endsWithL_append h10]

/-! ### Records as Python dicts -/

/-- Python `d.get(k)` / `d[k]` lookup (first binding wins). -/
def dictGet (d : Dict) (k : String) : Option String :=
  match d with
  | [] => none
  | (k2, v) :: rest => if k2 = k then some v else dictGet rest k

/-- Python `d[k] = v`: replace the value in place when the key exists
(keeping its position), else append the binding. -/
def dictSet (d : Dict) (k v : String) : Dict :=
  match d with
  | [] => [(k, v)]
  | (k2, v2) :: rest =>
    if k2 = k then (k2, v) :: rest else (k2, v2) :: dictSet rest k v

/-- A task record: the three identifying fields `main` validates plus the
opaque pass-through fields, its dict form listing the required keys first. -/
structure TaskRecord where
  instance_id : String
  repo : String
  base_commit : String
  extra : List (String × String)
  deriving Repr, DecidableEq

/-- The Python dict of a task record. -/
def TaskRecord.toDict (t : TaskRecord) : Dict :=
  ("instance_id", t.instance_id) :: ("repo", t.repo) ::
    ("base_commit", t.base_commit) :: t.extra

/-- The identifying fields of a record in dict form. -/
def idFieldsD (d : Dict) : Option String × Option String × Option String :=
  (dictGet d "instance_id", dictGet d "repo", dictGet d "base_commit")

lemma dictGet_dictSet_ne {d : Dict} {k k2 v : String} (h : k2 ≠ k) :
    dictGet (dictSet d k v) k2 = dictGet d k2 := by
  induction d with
  | nil => simp [dictGet, dictSet, Ne.symm h]
  | cons kv rest ih =>
    obtain ⟨k3, v3⟩ := kv
    by_cases hk : k3 = k
    · subst hk
      simp only [dictSet, if_pos rfl]
      simp [dictGet, Ne.symm h]
    · simp only [dictSet, if_neg hk]
      by_cases hk2 : k3 = k2
      · simp [dictGet, hk2]
      · simp [dictGet, hk2, ih]

lemma dictSet_ne_nil (d : Dict) (k v : String) : dictSet d k v ≠ [] := by
  cases d with
  | nil => simp [dictSet]
  | cons kv rest =>
    obtain ⟨k2, v2⟩ := kv
    by_cases h : k2 = k <;> simp [dictSet, h]

lemma idFieldsD_dictSet_version (d : Dict) (v : String) :
    idFieldsD (dictSet d "version" v) = idFieldsD d := by
  unfold idFieldsD
  rw [dictGet_dictSet_ne (by decide), dictGet_dictSet_ne (by decide),
      dictGet_dictSet_ne (by decide)]

/-! ### Filesystem probing and the repository cache resolver -/

/-- `os.path.join` (POSIX), one component. -/
def pjoin (a b : String) : String :=
  if b.data.head? = some '/' then b
  else if a = "" then b
  else if a.data.getLast? = some '/' then a ++ b
  else a ++ "/" ++ b

/-- Oracle for `os.path.isdir` / `os.path.isfile`. -/
structure FS where
  isDir : String → Bool
  isFile : String → Bool

/-- `is_git_repo_path` (lines 27–38): a directory that has a `.git`
subdirectory, or (bare layout) both a `HEAD` file and an `objects`
directory. -/
def is_git_repo_path (fs : FS) (path : String) : Bool :=
  if !fs.isDir path then false
  else if fs.isDir (pjoin path ".git") then true
  else fs.isFile (pjoin path "HEAD") && fs.isDir (pjoin path "objects")

/-- `repo.replace("/", "__")` over the character list. -/
def flattenL : List Char → List Char
  | [] => []
  | c :: rest => (if c = '/' then ['_', '_'] else [c]) ++ flattenL rest

/-- `repo.replace("/", "__")`. -/
def flattenRepo (repo : String) : String := ⟨flattenL repo.data⟩

/-- Python `repo.split("/")` (explicit separator: adjacent separators give
empty fields). -/
def splitSlash : List Char → List (List Char)
  | [] => [[]]
  | c :: rest =>
    if c = '/' then [] :: splitSlash rest
    else
      match splitSlash rest with
      | [] => [[c]]
      | h :: t => (c :: h) :: t

/-- `os.path.join(base, *parts)`. -/
def joinParts (base : String) (parts : List (List Char)) : String :=
  parts.foldl (fun acc part => pjoin acc ⟨part⟩) base

/-- `repo.split("/")[-1]`. -/
def lastPart (repo : String) : String := ⟨(splitSlash repo.data).getLastD []⟩

/-- The ordered candidate list probed in local-cache mode (lines 69–76). -/
def repoCandidates (local_cache_dir repo : String) : List String :=
  [ pjoin local_cache_dir (flattenRepo repo),
    pjoin local_cache_dir (flattenRepo repo ++ ".git"),
    joinParts local_cache_dir (splitSlash repo.data),
    joinParts local_cache_dir (splitSlash repo.data) ++ ".git",
    pjoin local_cache_dir (lastPart repo),
    pjoin local_cache_dir (lastPart repo ++ ".git") ]

/-- One iteration of the `prepare_repo_cache` loop (lines 62–94) on the
mapping built so far.  In local-cache mode the first candidate verifying
`is_git_repo_path` is recorded through `os.path.abspath` (the `abspath`
oracle); when none verifies nothing is recorded, whether or not
`skip_missing_repo` is set (the flag only changes logging).  In remote mode
a clone into `cache_dir/owner__name` is attempted (`cloneOk` oracle) and
recorded when it succeeds. -/
def cacheStep (cache_dir : String) (local_cache_dir : Option String)
    (fs : FS) (abspath : String → String) (cloneOk : String → Bool)
    (repo_cache : String → Option String) (task : TaskRecord) :
    String → Option String :=
  let repo := task.repo
  if (repo_cache repo).isSome then repo_cache
  else
    match local_cache_dir with
    | some lcd =>
      match (repoCandidates lcd repo).find? (is_git_repo_path fs) with
      | some local_path =>
        fun r => if r = repo then some (abspath local_path) else repo_cache r
      | none => repo_cache
    | none =>
      let local_path := pjoin cache_dir (flattenRepo repo)
      if cloneOk repo then
        fun r => if r = repo then some local_path else repo_cache r
      else repo_cache

/-- `prepare_repo_cache` (lines 59–95), as the repository → path mapping it
returns. -/
def prepare_repo_cache (tasks : List TaskRecord) (cache_dir : String)
    (local_cache_dir : Option String) (skip_missing_repo : Bool)
    (fs : FS) (abspath : String → String) (cloneOk : String → Bool) :
    String → Option String :=
  tasks.foldl (cacheStep cache_dir local_cache_dir fs abspath cloneOk)
    (fun _ => none)

/-! #### First-match characterisation of the candidate probe -/

/-- `List.find?` returns exactly the first satisfying element: everything
strictly before it fails the predicate. -/
lemma find?_eq_some_first {p : String → Bool} {l : List String} {v : String} :
    l.find? p = some v ↔
      ∃ l1 l2, l = l1 ++ v :: l2 ∧ p v = true ∧ ∀ c ∈ l1, p c = false := by
  induction l with
  | nil =>
    constructor
    · intro h
      simp [List.find?] at h
    · rintro ⟨l1, l2, h, -, -⟩
      exact absurd h (by simp)
  | cons a t ih =>
    cases hp : p a with
    | true =>
      rw [List.find?_cons_of_pos _ hp]
      constructor
      · rintro h
        injection h with h
        exact ⟨[], t, by simp [h], h ▸ hp, by simp⟩
      · rintro ⟨l1, l2, hdec, hv, hfail⟩
        cases l1 with
        | nil =>
          injection hdec with h1 h2
          rw [h1]
        | cons b l1t =>
          injection hdec with h1 h2
          subst h1
          exact absurd hp (by simp [hfail a (by simp)])
    | false =>
      rw [List.find?_cons_of_neg _ (by simp [hp])]
      rw [ih]
      constructor
      · rintro ⟨l1, l2, hdec, hv, hfail⟩
        refine ⟨a :: l1, l2, by rw [hdec]; simp, hv, ?_⟩
        intro c hc
        rcases List.mem_cons.mp hc with rfl | hc2
        · exact hp
        · exact hfail c hc2
      · rintro ⟨l1, l2, hdec, hv, hfail⟩
        cases l1 with
        | nil =>
          injection hdec with h1 h2
          subst h1
          exact absurd hp (by simp [hv])
        | cons b l1t =>
          injection hdec with h1 h2
          subst h1
          exact ⟨l1t, l2, h2, hv, fun c hc => hfail c (by simp [hc])⟩

/-! #### The cache fold: monotonicity, invariant, coverage -/

/-- The value `prepare_repo_cache` records for a repository in local-cache
mode, per the candidate probe. -/
def expectedLocal (fs : FS) (abspath : String → String) (lcd repo : String) :
    Option String :=
  Option.map abspath ((repoCandidates lcd repo).find? (is_git_repo_path fs))

lemma cacheStep_mono {cache_dir lcd fs abspath cloneOk} {cache : String → Option String}
    {t : TaskRecord} {r v : String} (h : cache r = some v) :
    cacheStep cache_dir lcd fs abspath cloneOk cache t r = some v := by
  unfold cacheStep
  by_cases hs : (cache t.repo).isSome
  · simp [hs, h]
  · simp only [hs, if_false, Bool.false_eq_true]
    have hne : r ≠ t.repo := fun he => hs (by rw [← he, h]; rfl)
    cases lcd with
    | some l =>
      cases hfind : (repoCandidates l t.repo).find? (is_git_repo_path fs) with
      | some p => simp [hfind, hne, h]
      | none => simp [hfind, h]
    | none =>
      by_cases hc : cloneOk t.repo = true
      · simp [hc, hne, h]
      · simp [hc, h]

lemma cacheFold_mono {cache_dir lcd fs abspath cloneOk}
    (tasks : List TaskRecord) {cache : String → Option String} {r v : String}
    (h : cache r = some v) :
    tasks.foldl (cacheStep cache_dir lcd fs abspath cloneOk) cache r = some v := by
  induction tasks generalizing cache with
  | nil => exact h
  | cons t rest ih => exact ih (cacheStep_mono h)

/-- Local-mode invariant: every recorded path is the abspath of the first
verifying candidate for its repository. -/
def cacheInv (fs : FS) (abspath : String → String) (lcd : String)
    (cache : String → Option String) : Prop :=
  ∀ r, cache r = none ∨ cache r = expectedLocal fs abspath lcd r

lemma cacheStep_inv {cache_dir fs abspath cloneOk lcd}
    {cache : String → Option String} {t : TaskRecord}
    (h : cacheInv fs abspath lcd cache) :
    cacheInv fs abspath lcd
      (cacheStep cache_dir (some lcd) fs abspath cloneOk cache t) := by
  intro r
  unfold cacheStep
  by_cases hs : (cache t.repo).isSome
  · simpa [hs] using h r
  · simp only [hs, if_false, Bool.false_eq_true]
    cases hfind : (repoCandidates lcd t.repo).find? (is_git_repo_path fs) with
    | some p =>
      simp only [hfind]
      by_cases hr : r = t.repo
      · subst hr
        right
        simp [expectedLocal, hfind]
      · simpa [hr] using h r
    | none => simpa [hfind] using h r

lemma cacheFold_inv {cache_dir fs abspath cloneOk lcd}
    (tasks : List TaskRecord) {cache : String → Option String}
    (h : cacheInv fs abspath lcd cache) :
    cacheInv fs abspath lcd
      (tasks.foldl (cacheStep cache_dir (some lcd) fs abspath cloneOk) cache) := by
  induction tasks generalizing cache with
  | nil => exact h
  | cons t rest ih => exact ih (cacheStep_inv h)

/-- Coverage: once some task mentions a repository, the final local-mode
cache holds exactly the expected entry for it. -/
lemma cacheFold_coverage {cache_dir fs abspath cloneOk lcd}
    (tasks : List TaskRecord) {cache : String → Option String}
    (hinv : cacheInv fs abspath lcd cache) {repo : String}
    (hmem : repo ∈ tasks.map TaskRecord.repo) :
    tasks.foldl (cacheStep cache_dir (some lcd) fs abspath cloneOk) cache repo
      = expectedLocal fs abspath lcd repo := by
  induction tasks generalizing cache with
  | nil => simp at hmem
  | cons t rest ih =>
    simp only [List.map_cons, List.mem_cons] at hmem
    rw [List.foldl_cons]
    by_cases hrepo : repo = t.repo
    · by_cases hs : (cache repo).isSome
      · obtain ⟨v, hv⟩ := Option.isSome_iff_exists.mp hs
        rw [cacheFold_mono rest (cacheStep_mono hv)]
        rcases hinv repo with hn | he
        · rw [hn] at hv; exact absurd hv (by simp)
        · rw [← he, hv]
      · have hnone : cache repo = none := Option.not_isSome_iff_eq_none.mp hs
        cases hfind : (repoCandidates lcd repo).find? (is_git_repo_path fs) with
        | some p =>
          have hset : cacheStep cache_dir (some lcd) fs abspath cloneOk cache t repo
              = some (abspath p) := by
            unfold cacheStep
            rw [← hrepo]
            simp [hnone, hfind]
          rw [cacheFold_mono rest hset]
          simp [expectedLocal, hfind]
        | none =>
          have hstay : cacheStep cache_dir (some lcd) fs abspath cloneOk cache t
              = cache := by
            unfold cacheStep
            rw [← hrepo]
            simp [hnone, hfind]
          rw [hstay]
          rcases @cacheFold_inv cache_dir fs abspath cloneOk lcd
              rest cache hinv repo with hn | he
          · rw [hn]
            simp [expectedLocal, hfind]
          · exact he
    · rcases hmem with h1 | h2
      · exact absurd h1 hrepo
      · exact ih (cacheStep_inv hinv) h2

/-- Top-level form of the coverage lemma for `prepare_repo_cache`. -/
lemma prepare_repo_cache_local_eq {cache_dir skip fs abspath cloneOk lcd}
    (tasks : List TaskRecord) {repo : String}
    (hmem : repo ∈ tasks.map TaskRecord.repo) :
    prepare_repo_cache tasks cache_dir (some lcd) skip fs abspath cloneOk repo
      = expectedLocal fs abspath lcd repo :=
  cacheFold_coverage tasks (fun _ => Or.inl rfl) hmem

/-! #### Candidate list for an `owner/name` repository -/

lemma str_data_append (a b : String) : (a ++ b).data = a.data ++ b.data := by
  cases a; cases b; rfl

lemma str_mk_data (s : String) : (⟨s.data⟩ : String) = s := by
  cases s; rfl

lemma flattenL_append (l1 l2 : List Char) :
    flattenL (l1 ++ l2) = flattenL l1 ++ flattenL l2 := by
  induction l1 with
  | nil => rfl
  | cons c rest ih => simp [flattenL, ih]

lemma flattenL_no_slash {l : List Char} (h : '/' ∉ l) : flattenL l = l := by
  induction l with
  | nil => rfl
  | cons c rest ih =>
    simp only [List.mem_cons, not_or] at h
    simp [flattenL, Ne.symm h.1, ih h.2]

lemma splitSlash_no_slash {l : List Char} (h : '/' ∉ l) : splitSlash l = [l] := by
  induction l with
  | nil => rfl
  | cons c rest ih =>
    simp only [List.mem_cons, not_or] at h
    simp [splitSlash, Ne.symm h.1, ih h.2]

lemma splitSlash_append {l1 l2 : List Char} (h : '/' ∉ l1) :
    splitSlash (l1 ++ '/' :: l2) = l1 :: splitSlash l2 := by
  induction l1 with
  | nil => simp [splitSlash]
  | cons c rest ih =>
    simp only [List.mem_cons, not_or] at h
    rw [List.cons_append]
    simp only [splitSlash]
    rw [ih h.2, if_neg (Ne.symm h.1)]

lemma repo_data_owner_name (owner name : String) :
    (owner ++ "/" ++ name).data = owner.data ++ '/' :: name.data := by
  rw [str_data_append, str_data_append]
  simp

lemma flattenRepo_owner_name {owner name : String}
    (ho : '/' ∉ owner.data) (hn : '/' ∉ name.data) :
    flattenRepo (owner ++ "/" ++ name) = owner ++ "__" ++ name := by
  unfold flattenRepo
  rw [repo_data_owner_name]
  rw [flattenL_append owner.data ('/' :: name.data)]
  rw [flattenL_no_slash ho]
  have : flattenL ('/' :: name.data) = '_' :: '_' :: name.data := by
    simp [flattenL, flattenL_no_slash hn]
  rw [this]
  have hd : (owner ++ "__" ++ name).data = owner.data ++ '_' :: '_' :: name.data := by
    rw [str_data_append, str_data_append]
    simp
  rw [← hd, str_mk_data]

lemma splitSlash_owner_name {owner name : String}
    (ho : '/' ∉ owner.data) (hn : '/' ∉ name.data) :
    splitSlash (owner ++ "/" ++ name).data = [owner.data, name.data] := by
  rw [repo_data_owner_name, splitSlash_append ho, splitSlash_no_slash hn]

lemma lastPart_owner_name {owner name : String}
    (ho : '/' ∉ owner.data) (hn : '/' ∉ name.data) :
    lastPart (owner ++ "/" ++ name) = name := by
  unfold lastPart
  rw [splitSlash_owner_name ho hn]
  simp [List.getLastD, str_mk_data]

/-- For an `owner/name` repository the probed candidates are exactly the six
paths the spec lists, in order. -/
lemma repoCandidates_owner_name {owner name : String} (lcd : String)
    (ho : '/' ∉ owner.data) (hn : '/' ∉ name.data) :
    repoCandidates lcd (owner ++ "/" ++ name) =
      [ pjoin lcd (owner ++ "__" ++ name),
        pjoin lcd (owner ++ "__" ++ name ++ ".git"),
        pjoin (pjoin lcd owner) name,
        pjoin (pjoin lcd owner) name ++ ".git",
        pjoin lcd name,
        pjoin lcd (name ++ ".git") ] := by
  unfold repoCandidates
  rw [flattenRepo_owner_name ho hn, splitSlash_owner_name ho hn,
      lastPart_owner_name ho hn]
  simp [joinParts, str_mk_data]

/-- C7: in local-cache mode, for every repository `owner/name`, the resolver
evaluates exactly the ordered candidate list [owner__name, owner__name.git,
owner/name, owner/name.git, name, name.git] short-circuit in that order,
records the (absolutized) path of the first candidate that verifies as a
repository, and records nothing when none verifies. -/
theorem c7_local_cache_candidate_order
    (tasks : List TaskRecord) (cache_dir lcd owner name : String)
    (skip : Bool) (fs : FS) (abspath : String → String) (cloneOk : String → Bool)
    (ho : '/' ∉ owner.data) (hn : '/' ∉ name.data)
    (hmem : (owner ++ "/" ++ name) ∈ tasks.map TaskRecord.repo) :
    (∀ v, prepare_repo_cache tasks cache_dir (some lcd) skip fs abspath cloneOk
        (owner ++ "/" ++ name) = some v ↔
      ∃ c l1 l2,
        [ pjoin lcd (owner ++ "__" ++ name),
          pjoin lcd (owner ++ "__" ++ name ++ ".git"),
          pjoin (pjoin lcd owner) name,
          pjoin (pjoin lcd owner) name ++ ".git",
          pjoin lcd name,
          pjoin lcd (name ++ ".git") ] = l1 ++ c :: l2 ∧
        is_git_repo_path fs c = true ∧
        (∀ c2 ∈ l1, is_git_repo_path fs c2 = false) ∧ v = abspath c) ∧
    (prepare_repo_cache tasks cache_dir (some lcd) skip fs abspath cloneOk
        (owner ++ "/" ++ name) = none ↔
      ∀ c ∈ [ pjoin lcd (owner ++ "__" ++ name),
              pjoin lcd (owner ++ "__" ++ name ++ ".git"),
              pjoin (pjoin lcd owner) name,
              pjoin (pjoin lcd owner) name ++ ".git",
              pjoin lcd name,
              pjoin lcd (name ++ ".git") ], is_git_repo_path fs c = false) := by
  rw [prepare_repo_cache_local_eq tasks hmem]
  unfold expectedLocal
  rw [repoCandidates_owner_name lcd ho hn]
  constructor
  · intro v
    constructor
    · intro h
      rcases Option.map_eq_some'.mp h with ⟨c, hfind, hv⟩
      rcases find?_eq_some_first.mp hfind with ⟨l1, l2, hdec, hc, hfail⟩
      exact ⟨c, l1, l2, hdec, hc, hfail, hv.symm⟩
    · rintro ⟨c, l1, l2, hdec, hc, hfail, hv⟩
      rw [hv]
      exact Option.map_eq_some'.mpr ⟨c, find?_eq_some_first.mpr ⟨l1, l2, hdec, hc, hfail⟩, rfl⟩
  · rw [Option.map_eq_none']
    rw [List.find?_eq_none]
    constructor
    · intro h c hc
      have := h c hc
      simpa using this
    · intro h c hc
      simp [h c hc]

/-- Witness for C7 at a concrete one-task input with the flat `owner__name`
layout present. -/
theorem c7_local_cache_candidate_order_witness :
    ('/' ∉ "o".data) ∧ ('/' ∉ "r".data) ∧
    (("o" ++ "/" ++ "r") ∈
      ([⟨"i1", "o/r", "c0", []⟩] : List TaskRecord).map TaskRecord.repo) ∧
    ((∀ v, prepare_repo_cache [⟨"i1", "o/r", "c0", []⟩] "/t/_cache" (some "/lc") false
        ⟨fun p => p = "/lc/o__r" || p = "/lc/o__r/.git", fun _ => false⟩
        (fun s => s) (fun _ => false) ("o" ++ "/" ++ "r") = some v ↔
      ∃ c l1 l2,
        [ pjoin "/lc" ("o" ++ "__" ++ "r"),
          pjoin "/lc" ("o" ++ "__" ++ "r" ++ ".git"),
          pjoin (pjoin "/lc" "o") "r",
          pjoin (pjoin "/lc" "o") "r" ++ ".git",
          pjoin "/lc" "r",
          pjoin "/lc" ("r" ++ ".git") ] = l1 ++ c :: l2 ∧
        is_git_repo_path
          ⟨fun p => p = "/lc/o__r" || p = "/lc/o__r/.git", fun _ => false⟩ c = true ∧
        (∀ c2 ∈ l1,
          is_git_repo_path
            ⟨fun p => p = "/lc/o__r" || p = "/lc/o__r/.git", fun _ => false⟩ c2 = false) ∧
        v = c) ∧
    (prepare_repo_cache [⟨"i1", "o/r", "c0", []⟩] "/t/_cache" (some "/lc") false
        ⟨fun p => p = "/lc/o__r" || p = "/lc/o__r/.git", fun _ => false⟩
        (fun s => s) (fun _ => false) ("o" ++ "/" ++ "r") = none ↔
      ∀ c ∈ [ pjoin "/lc" ("o" ++ "__" ++ "r"),
              pjoin "/lc" ("o" ++ "__" ++ "r" ++ ".git"),
              pjoin (pjoin "/lc" "o") "r",
              pjoin (pjoin "/lc" "o") "r" ++ ".git",
              pjoin "/lc" "r",
              pjoin "/lc" ("r" ++ ".git") ],
        is_git_repo_path
          ⟨fun p => p = "/lc/o__r" || p = "/lc/o__r/.git", fun _ => false⟩ c = false)) :=
  ⟨by decide, by decide, by simp,
    c7_local_cache_candidate_order [⟨"i1", "o/r", "c0", []⟩] "/t/_cache" "/lc" "o" "r"
      false ⟨fun p => p = "/lc/o__r" || p = "/lc/o__r/.git", fun _ => false⟩
      (fun s => s) (fun _ => false) (by decide) (by decide) (by simp)⟩

/-! ### One task's processing: oracle, effects, control flow -/

/-- Trace events of one task's processing.  `rmtreeIgnoreErrors` is
`shutil.rmtree(path, ignore_errors=True)`; `gitConfigGlobalSafeDir` is
`git config --global --add safe.directory <path>`; `chdir` is the
`os.chdir` performed by the `cd` context manager (lines 11–18). -/
inductive Effect where
  | rmtreeIgnoreErrors (path : String)
  | copytree (src dst : String)
  | gitClone (src dst : String)
  | gitConfigGlobalSafeDir (path : String)
  | chdir (path : String)
  | gitCheckout (commit : String)
  | gitDescribe
  deriving Repr, DecidableEq

/-- Oracle fixing the outcomes one task's processing observes from the
filesystem and from external git processes.  `stagingRemovable` records
whether a pre-existing staging directory could actually be removed;
`shutil.rmtree(..., ignore_errors=True)` reports nothing either way, so no
other part of the model may depend on it. -/
structure Env where
  stagingExists : Bool
  stagingRemovable : Bool
  cachedExists : Bool
  cachedHasGitDir : Bool
  copyOk : Bool
  cloneOk : Bool
  configOk : Bool
  checkoutOk : Bool
  repoDirIsDir : Bool
  describeOk : Bool
  describeStdout : String
  deriving Repr, DecidableEq

/-- `get_version_by_git` (lines 40–50): the `isdir` guard, then under
`cd(cloned_dir)` run `git describe --tags` and parse its stripped stdout.
`cwd` is the process working directory on entry; the `cd` context manager
restores it on every exit path of the `with` block (so the describe-failed
and parse paths leave the same trace). -/
def get_version_by_git (cloned_dir : String) (env : Env) (cwd : String) :
    Except TaskError String × List Effect :=
  if ¬ env.repoDirIsDir then (.error .notADirectory, [])
  else
    ((if ¬ env.describeOk then .error .describeFailed
      else parseVersionOut env.describeStdout),
     [.chdir cloned_dir, .gitDescribe, .chdir cwd])

/-- Lines 115–121 of `process_repo_task`, after the working copy has been
materialized with effects `matEff`: global safe.directory config, checkout
under `cd(repo_dir)`, then version extraction; the success value is
`task.copy()` with `version` set. -/
def afterMaterialize (task : TaskRecord) (testbed : String) (env : Env)
    (cwd0 : String) (matEff : List Effect) :
    Except TaskError Dict × List Effect :=
  let repo_dir := pjoin testbed task.instance_id
  if ¬ env.configOk then
    (.error .configFailed, matEff ++ [.gitConfigGlobalSafeDir repo_dir])
  else if ¬ env.checkoutOk then
    (.error .checkoutFailed,
     matEff ++ [.gitConfigGlobalSafeDir repo_dir, .chdir repo_dir,
                .gitCheckout task.base_commit, .chdir cwd0])
  else
    ((match (get_version_by_git repo_dir env cwd0).1 with
      | .error e => .error e
      | .ok version => .ok (dictSet task.toDict "version" version)),
     matEff ++ [.gitConfigGlobalSafeDir repo_dir, .chdir repo_dir,
                .gitCheckout task.base_commit, .chdir cwd0]
       ++ (get_version_by_git repo_dir env cwd0).2)

/-- The `try:` body of `process_repo_task` (lines 105–121): cache lookup (an
empty or missing path raises), materialization by copy (cache has a working
tree) or clone (bare cache), then `afterMaterialize`. -/
def process_repo_task_body (task : TaskRecord) (testbed : String)
    (repo_cache : String → Option String) (env : Env) (cwd0 : String) :
    Except TaskError Dict × List Effect :=
  let repo_dir := pjoin testbed task.instance_id
  match repo_cache task.repo with
  | none => (.error .missingCacheEntry, [])
  | some cached_repo =>
    if cached_repo = "" ∨ ¬ env.cachedExists then (.error .missingCacheEntry, [])
    else if env.cachedHasGitDir then
      if ¬ env.copyOk then
        (.error .materializeFailed, [.copytree cached_repo repo_dir])
      else afterMaterialize task testbed env cwd0 [.copytree cached_repo repo_dir]
    else
      if ¬ env.cloneOk then
        (.error .materializeFailed, [.gitClone cached_repo repo_dir])
      else afterMaterialize task testbed env cwd0 [.gitClone cached_repo repo_dir]

/-- `process_repo_task` (lines 97–126): pre-clean a pre-existing staging
directory with errors ignored, run the try body with every exception
converted to `None`, and unconditionally remove the staging directory in
`finally`. -/
def process_repo_task (task : TaskRecord) (testbed : String)
    (repo_cache : String → Option String) (env : Env) (cwd0 : String) :
    Option Dict × List Effect :=
  let repo_dir := pjoin testbed task.instance_id
  let pre : List Effect :=
    if env.stagingExists then [.rmtreeIgnoreErrors repo_dir] else []
  ((process_repo_task_body task testbed repo_cache env cwd0).1.toOption,
   pre ++ (process_repo_task_body task testbed repo_cache env cwd0).2
     ++ [.rmtreeIgnoreErrors repo_dir])

/-- The process-wide working directory after replaying a trace from `cwd0`. -/
def cwdAfter (cwd0 : String) (tr : List Effect) : String :=
  tr.foldl (fun c e => match e with | .chdir p => p | _ => c) cwd0

/-- The user-global git configuration file appended to by
`git config --global --add safe.directory`. -/
def gitGlobalConfig : String := "~/.gitconfig"

/-- The filesystem location an effect writes to, when it is not confined to
the directory the process is currently chdir-ed into (`gitCheckout` and
`gitDescribe` operate inside the staging working copy they run in). -/
def writeTarget : Effect → Option String
  | .rmtreeIgnoreErrors p => some p
  | .copytree _ dst => some dst
  | .gitClone _ dst => some dst
  | .gitConfigGlobalSafeDir _ => some gitGlobalConfig
  | .chdir _ => none
  | .gitCheckout _ => none
  | .gitDescribe => none

/-- Whether an effect writes only to `root` or to the global git config. -/
def writeWithin (root : String) (e : Effect) : Bool :=
  match writeTarget e with
  | none => true
  | some p => p = root || p = gitGlobalConfig

lemma cwdAfter_append (c : String) (t1 t2 : List Effect) :
    cwdAfter c (t1 ++ t2) = cwdAfter (cwdAfter c t1) t2 := by
  unfold cwdAfter
  rw [List.foldl_append]

lemma get_version_trace (cloned_dir : String) (env : Env) (cwd : String) :
    (get_version_by_git cloned_dir env cwd).2 =
      if ¬ env.repoDirIsDir then []
      else [.chdir cloned_dir, .gitDescribe, .chdir cwd] := by
  unfold get_version_by_git
  split <;> rfl

lemma cwdAfter_afterMat (task : TaskRecord) (testbed : String) (env : Env)
    (cwd0 : String) (matEff : List Effect)
    (hmat : cwdAfter cwd0 matEff = cwd0) :
    cwdAfter cwd0 (afterMaterialize task testbed env cwd0 matEff).2 = cwd0 := by
  unfold afterMaterialize
  split
  · rw [cwdAfter_append, hmat]
    rfl
  · split
    · rw [cwdAfter_append, hmat]
      rfl
    · simp only [cwdAfter_append, get_version_trace, hmat]
      split <;> simp [cwdAfter]

lemma cwdAfter_body (task : TaskRecord) (testbed : String)
    (repo_cache : String → Option String) (env : Env) (cwd0 : String) :
    cwdAfter cwd0 (process_repo_task_body task testbed repo_cache env cwd0).2
      = cwd0 := by
  unfold process_repo_task_body
  repeat' split
  · rfl
  · rfl
  · simp [cwdAfter]
  · exact cwdAfter_afterMat _ _ _ _ _ (by simp [cwdAfter])
  · simp [cwdAfter]
  · exact cwdAfter_afterMat _ _ _ _ _ (by simp [cwdAfter])

lemma writeWithin_afterMat (task : TaskRecord) (testbed : String) (env : Env)
    (cwd0 : String) (matEff : List Effect)
    (hmat : matEff.all (writeWithin (pjoin testbed task.instance_id)) = true) :
    ((afterMaterialize task testbed env cwd0 matEff).2).all
      (writeWithin (pjoin testbed task.instance_id)) = true := by
  unfold afterMaterialize
  split
  · simp [List.all_append, hmat, writeWithin, writeTarget]
  · split
    · simp [List.all_append, hmat, writeWithin, writeTarget]
    · simp only [get_version_trace]
      split <;> simp [List.all_append, hmat, writeWithin, writeTarget]

lemma writeWithin_body (task : TaskRecord) (testbed : String)
    (repo_cache : String → Option String) (env : Env) (cwd0 : String) :
    ((process_repo_task_body task testbed repo_cache env cwd0).2).all
      (writeWithin (pjoin testbed task.instance_id)) = true := by
  unfold process_repo_task_body
  repeat' split
  · rfl
  · rfl
  · simp [writeWithin, writeTarget]
  · exact writeWithin_afterMat _ _ _ _ _ (by simp [writeWithin, writeTarget])
  · simp [writeWithin, writeTarget]
  · exact writeWithin_afterMat _ _ _ _ _ (by simp [writeWithin, writeTarget])


lemma writeWithin_spec {root : String} {e : Effect} {p : String}
    (h : writeWithin root e = true) (hw : writeTarget e = some p) :
    p = root ∨ p = gitGlobalConfig := by
  unfold writeWithin at h
  rw [hw] at h
  simpa using h

/-- `p` lies at or below `root` (equals it or starts with `root ++ "/"`). -/
def underPath (root p : String) : Bool :=
  p = root ||
    decide (p.data.take ((root ++ "/").data.length) = (root ++ "/").data)

/-- C6: on every exit path of a task's processing unit (success, any
per-task error, or an exception in the body), the final effect of its trace
is removal of the task's staging directory `testbed/instance_id`. -/
theorem c6_staging_removed_last (task : TaskRecord) (testbed : String)
    (repo_cache : String → Option String) (env : Env) (cwd0 : String) :
    ∃ pre, (process_repo_task task testbed repo_cache env cwd0).2
      = pre ++ [Effect.rmtreeIgnoreErrors (pjoin testbed task.instance_id)] :=
  ⟨(if env.stagingExists then
      [Effect.rmtreeIgnoreErrors (pjoin testbed task.instance_id)] else []) ++
    (process_repo_task_body task testbed repo_cache env cwd0).2, rfl⟩

/-- C5 (amended): each `cd`-scoped working-directory change is restored, so
the working directory after the unit equals the one before it; and every
write of the trace targets either the task's staging directory or the
user-global git configuration (the shared cache entry is only read). -/
theorem c5_cwd_restored_writes_bounded (task : TaskRecord) (testbed : String)
    (repo_cache : String → Option String) (env : Env) (cwd0 : String) :
    cwdAfter cwd0 (process_repo_task task testbed repo_cache env cwd0).2 = cwd0 ∧
    ∀ e ∈ (process_repo_task task testbed repo_cache env cwd0).2,
      ∀ p, writeTarget e = some p →
        p = pjoin testbed task.instance_id ∨ p = gitGlobalConfig := by
  have hpre : cwdAfter cwd0 (if env.stagingExists then
      [Effect.rmtreeIgnoreErrors (pjoin testbed task.instance_id)] else ([] : List Effect))
      = cwd0 := by
    split <;> simp [cwdAfter]
  constructor
  · show cwdAfter cwd0 (_ ++ _ ++ _) = cwd0
    rw [cwdAfter_append, cwdAfter_append, hpre, cwdAfter_body]
    simp [cwdAfter]
  · intro e he p hw
    simp only [process_repo_task, List.mem_append] at he
    rcases he with (he | he) | he
    · left
      revert he
      split <;> intro he
      · simp only [List.mem_singleton] at he
        rw [he] at hw
        simp only [writeTarget, Option.some.injEq] at hw
        exact hw.symm
      · simp at he
    · have hall := writeWithin_body task testbed repo_cache env cwd0
      rw [List.all_eq_true] at hall
      exact writeWithin_spec (hall e he) hw
    · left
      simp only [List.mem_singleton] at he
      rw [he] at hw
      simp only [writeTarget, Option.some.injEq] at hw
      exact hw.symm

/-- Witness for C5's amended theorem at a concrete all-success run. -/
theorem c5_cwd_restored_writes_bounded_witness :
    Effect.copytree "/cache/o__r" (pjoin "/testbed" "inst1") ∈
      (process_repo_task ⟨"inst1", "o/r", "c0", []⟩ "/testbed"
        (fun rp => if rp = "o/r" then some "/cache/o__r" else none)
        ⟨false, true, true, true, true, true, true, true, true, true, "v1.2"⟩
        "/start").2 ∧
    writeTarget (Effect.copytree "/cache/o__r" (pjoin "/testbed" "inst1")) =
      some (pjoin "/testbed" "inst1") ∧
    (pjoin "/testbed" "inst1" = pjoin "/testbed" "inst1" ∨
      pjoin "/testbed" "inst1" = gitGlobalConfig) :=
  ⟨by decide, by decide,
    (c5_cwd_restored_writes_bounded ⟨"inst1", "o/r", "c0", []⟩ "/testbed"
      (fun rp => if rp = "o/r" then some "/cache/o__r" else none)
      ⟨false, true, true, true, true, true, true, true, true, true, "v1.2"⟩
      "/start").2 (Effect.copytree "/cache/o__r" (pjoin "/testbed" "inst1"))
      (by decide) (pjoin "/testbed" "inst1") (by decide)⟩

/-- C5 counterexample: the unit does change the process-wide working
directory — `cd(repo_dir)` chdirs into the staging directory, which differs
from the starting directory — and `git config --global` writes to the
user-global git configuration, which lies outside the scratch path. -/
theorem c5_counterexample :
    Effect.chdir (pjoin "/testbed" "inst1") ∈
      (process_repo_task ⟨"inst1", "o/r", "c0", []⟩ "/testbed"
        (fun rp => if rp = "o/r" then some "/cache/o__r" else none)
        ⟨false, true, true, true, true, true, true, true, true, true, "v1.2"⟩
        "/start").2 ∧
    pjoin "/testbed" "inst1" ≠ "/start" ∧
    Effect.gitConfigGlobalSafeDir (pjoin "/testbed" "inst1") ∈
      (process_repo_task ⟨"inst1", "o/r", "c0", []⟩ "/testbed"
        (fun rp => if rp = "o/r" then some "/cache/o__r" else none)
        ⟨false, true, true, true, true, true, true, true, true, true, "v1.2"⟩
        "/start").2 ∧
    writeTarget (Effect.gitConfigGlobalSafeDir (pjoin "/testbed" "inst1")) =
      some gitGlobalConfig ∧
    underPath (pjoin "/testbed" "inst1") gitGlobalConfig = false ∧
    underPath "/testbed" gitGlobalConfig = false := by
  refine ⟨by decide, by decide, by decide, by decide, by decide, by decide⟩

/-- C9 counterexample: with the staging path pre-existing and unremovable,
the unit does not fail with any staging error — removal errors are ignored
and processing proceeds to a success. -/
theorem c9_counterexample :
    (process_repo_task_body ⟨"inst1", "o/r", "c0", []⟩ "/testbed"
        (fun rp => if rp = "o/r" then some "/cache/o__r" else none)
        ⟨true, false, true, true, true, true, true, true, true, true, "v2.3.1"⟩
        "/start").1 =
      .ok [("instance_id", "inst1"), ("repo", "o/r"),
           ("base_commit", "c0"), ("version", "2.3")] ∧
    (process_repo_task ⟨"inst1", "o/r", "c0", []⟩ "/testbed"
        (fun rp => if rp = "o/r" then some "/cache/o__r" else none)
        ⟨true, false, true, true, true, true, true, true, true, true, "v2.3.1"⟩
        "/start").1 =
      some [("instance_id", "inst1"), ("repo", "o/r"),
            ("base_commit", "c0"), ("version", "2.3")] :=
  ⟨rfl, rfl⟩

/-- C9 (amended): when the scratch path already exists its removal is
attempted with errors ignored; whether removal succeeds cannot influence
the outcome, and no staging error is ever raised. -/
theorem c9_removal_failure_ignored (task : TaskRecord) (testbed : String)
    (repo_cache : String → Option String) (env : Env) (cwd0 : String)
    (b1 b2 : Bool) :
    process_repo_task task testbed repo_cache
        { env with stagingRemovable := b1 } cwd0
      = process_repo_task task testbed repo_cache
        { env with stagingRemovable := b2 } cwd0 ∧
    (env.stagingExists = true →
      ((process_repo_task task testbed repo_cache env cwd0).2).head?
        = some (.rmtreeIgnoreErrors (pjoin testbed task.instance_id))) := by
  constructor
  · rfl
  · intro h
    simp [process_repo_task, h]

/-- Witness for C9's amended theorem. -/
theorem c9_removal_failure_ignored_witness :
    (⟨true, false, true, true, true, true, true, true, true, true, "v2.3.1"⟩
        : Env).stagingExists = true ∧
    ((process_repo_task ⟨"inst1", "o/r", "c0", []⟩ "/testbed"
        (fun rp => if rp = "o/r" then some "/cache/o__r" else none)
        ⟨true, false, true, true, true, true, true, true, true, true, "v2.3.1"⟩
        "/start").2).head?
      = some (.rmtreeIgnoreErrors (pjoin "/testbed" "inst1")) :=
  ⟨rfl,
    (c9_removal_failure_ignored ⟨"inst1", "o/r", "c0", []⟩ "/testbed"
      (fun rp => if rp = "o/r" then some "/cache/o__r" else none)
      ⟨true, false, true, true, true, true, true, true, true, true, "v2.3.1"⟩
      "/start" true false).2 rfl⟩

/-- Every `.ok` outcome of the try body is the task's dict extended with a
`version` of the exact shape `^\d+\.\d+$`. -/
lemma afterMat_ok_shape {task : TaskRecord} {testbed : String} {env : Env}
    {cwd0 : String} {matEff : List Effect} {r : Dict}
    (h : (afterMaterialize task testbed env cwd0 matEff).1 = .ok r) :
    ∃ v, r = dictSet task.toDict "version" v ∧ isFullVersion v.data = true := by
  unfold afterMaterialize at h
  split at h
  · simp at h
  · split at h
    · simp at h
    · simp only at h
      split at h
      · simp at h
      · next version hver =>
        simp only [Except.ok.injEq] at h
        refine ⟨version, h.symm, ?_⟩
        unfold get_version_by_git at hver
        split at hver
        · simp at hver
        · simp only at hver
          split at hver
          · simp at hver
          · unfold parseVersionOut at hver
            split at hver
            · next cs hcs =>
              simp only [Except.ok.injEq] at hver
              rw [← hver]
              exact searchVersion_some_isFullVersion hcs
            · simp at hver

lemma body_ok_shape {task : TaskRecord} {testbed : String}
    {repo_cache : String → Option String} {env : Env} {cwd0 : String} {r : Dict}
    (h : (process_repo_task_body task testbed repo_cache env cwd0).1 = .ok r) :
    ∃ v, r = dictSet task.toDict "version" v ∧ isFullVersion v.data = true := by
  unfold process_repo_task_body at h
  split at h
  · simp at h
  · split at h
    · simp at h
    · split at h
      · split at h
        · simp at h
        · exact afterMat_ok_shape h
      · split at h
        · simp at h
        · exact afterMat_ok_shape h

/-- C1: every successfully processed task's success record equals the
original task record extended with a `version` field matching `^\d+\.\d+$`;
in the concrete scenario where the describe query reports `v2.3.1`, the
attached version is `2.3`. -/
theorem c1_success_record_version (task : TaskRecord) (testbed : String)
    (repo_cache : String → Option String) (env : Env) (cwd0 : String)
    (r : Dict)
    (h : (process_repo_task task testbed repo_cache env cwd0).1 = some r) :
    (∃ v, r = dictSet task.toDict "version" v ∧ isFullVersion v.data = true) ∧
    (process_repo_task ⟨"o__r-1", "o/r", "abc123", []⟩ "/tb"
        (fun rp => if rp = "o/r" then some "/cache/o__r" else none)
        ⟨false, true, true, true, true, true, true, true, true, true, "v2.3.1"⟩
        "/start").1 =
      some [("instance_id", "o__r-1"), ("repo", "o/r"),
            ("base_commit", "abc123"), ("version", "2.3")] := by
  constructor
  · have hb : (process_repo_task_body task testbed repo_cache env cwd0).1 = .ok r := by
      simp only [process_repo_task] at h
      cases hbody : (process_repo_task_body task testbed repo_cache env cwd0).1 with
      | error e => rw [hbody] at h; simp [Except.toOption] at h
      | ok r2 =>
        rw [hbody] at h
        simp only [Except.toOption, Option.some.injEq] at h
        rw [h]
    exact body_ok_shape hb
  · rfl

/-- Witness for C1 at the spec's `v2.3.1` scenario. -/
theorem c1_success_record_version_witness :
    ((process_repo_task ⟨"o__r-1", "o/r", "abc123", []⟩ "/tb"
        (fun rp => if rp = "o/r" then some "/cache/o__r" else none)
        ⟨false, true, true, true, true, true, true, true, true, true, "v2.3.1"⟩
        "/start").1 =
      some [("instance_id", "o__r-1"), ("repo", "o/r"),
            ("base_commit", "abc123"), ("version", "2.3")]) ∧
    (∃ v, [("instance_id", "o__r-1"), ("repo", "o/r"),
           ("base_commit", "abc123"), ("version", "2.3")] =
        dictSet (TaskRecord.mk "o__r-1" "o/r" "abc123" []).toDict "version" v ∧
      isFullVersion v.data = true) :=
  ⟨rfl,
    (c1_success_record_version ⟨"o__r-1", "o/r", "abc123", []⟩ "/tb"
      (fun rp => if rp = "o/r" then some "/cache/o__r" else none)
      ⟨false, true, true, true, true, true, true, true, true, true, "v2.3.1"⟩
      "/start" _ rfl).1⟩

/-! ### The concurrent task processor at the pool boundary -/

/-- Outcome of `future.result()` for one submitted task: the value
`process_repo_task` returned (possibly `None`), or an exception surfaced at
the pool boundary (a worker crash). -/
inductive FutureResult where
  | val (r : Option Dict)
  | exc
  deriving Repr, DecidableEq

/-- One step of the collection loop of `process_repos` (lines 135–145): a
truthy result is appended to results, a `None`/falsy result or an exception
appends the original task to failures. -/
def collectStep (acc : List Dict × List TaskRecord)
    (tr : TaskRecord × FutureResult) : List Dict × List TaskRecord :=
  match tr.2 with
  | .val (some r) =>
    if r.isEmpty then (acc.1, acc.2 ++ [tr.1]) else (acc.1 ++ [r], acc.2)
  | .val none => (acc.1, acc.2 ++ [tr.1])
  | .exc => (acc.1, acc.2 ++ [tr.1])

/-- The collection loop of `process_repos` over the completed futures in
completion order. -/
def process_repos_collect (completions : List (TaskRecord × FutureResult)) :
    List Dict × List TaskRecord :=
  completions.foldl collectStep ([], [])

/-- One worker's submission outcome: `crash t = true` models a worker crash
surfaced as an exception at the pool boundary; otherwise the worker ran
`process_repo_task` to completion (which itself converts every body
exception to `None`). -/
def submitOutcome (testbed : String) (repo_cache : String → Option String)
    (envOf : TaskRecord → Env) (crash : TaskRecord → Bool) (cwd0 : String)
    (t : TaskRecord) : FutureResult :=
  if crash t then .exc
  else .val (process_repo_task t testbed repo_cache (envOf t) cwd0).1

/-- `process_repos` (lines 128–146), parametrised by the nondeterministic
completion order `order` of the submitted tasks. -/
def process_repos (testbed : String) (repo_cache : String → Option String)
    (envOf : TaskRecord → Env) (crash : TaskRecord → Bool) (cwd0 : String)
    (order : List TaskRecord) : List Dict × List TaskRecord :=
  process_repos_collect
    (order.map (fun t => (t, submitOutcome testbed repo_cache envOf crash cwd0 t)))

/-- The `main` filter (lines 191–192): with a local cache dir and
`skip_missing_repo` both set, drop tasks whose repository has no cache entry
before processing. -/
def mainTasksAfterSkip (tasks : List TaskRecord) (localCache skip : Bool)
    (repo_cache : String → Option String) : List TaskRecord :=
  if localCache && skip then tasks.filter (fun t => (repo_cache t.repo).isSome)
  else tasks

/-- Identifying fields of a task record. -/
def idFieldsT (t : TaskRecord) : Option String × Option String × Option String :=
  idFieldsD t.toDict

/-- The success a completion contributes, if any. -/
def succSel (tr : TaskRecord × FutureResult) : Option Dict :=
  match tr.2 with
  | .val (some r) => if r.isEmpty then none else some r
  | .val none => none
  | .exc => none

/-- The failure a completion contributes, if any. -/
def failSel (tr : TaskRecord × FutureResult) : Option TaskRecord :=
  match tr.2 with
  | .val (some r) => if r.isEmpty then some tr.1 else none
  | .val none => some tr.1
  | .exc => some tr.1

lemma collect_go (completions : List (TaskRecord × FutureResult))
    (acc1 : List Dict) (acc2 : List TaskRecord) :
    completions.foldl collectStep (acc1, acc2) =
      (acc1 ++ completions.filterMap succSel,
       acc2 ++ completions.filterMap failSel) := by
  induction completions generalizing acc1 acc2 with
  | nil => simp
  | cons tr rest ih =>
    obtain ⟨t, fr⟩ := tr
    cases fr with
    | val r =>
      cases r with
      | some d =>
        by_cases hd : d.isEmpty
        · simp [collectStep, succSel, failSel, hd, ih]
        · simp [collectStep, succSel, failSel, hd, ih]
      | none => simp [collectStep, succSel, failSel, ih]
    | exc => simp [collectStep, succSel, failSel, ih]

lemma collect_eq (completions : List (TaskRecord × FutureResult)) :
    process_repos_collect completions =
      (completions.filterMap succSel, completions.filterMap failSel) := by
  simpa using collect_go completions [] []

/-- Each completion contributes to exactly one of the two partitions. -/
lemma collect_length (completions : List (TaskRecord × FutureResult)) :
    (completions.filterMap succSel).length +
      (completions.filterMap failSel).length = completions.length := by
  induction completions with
  | nil => rfl
  | cons tr rest ih =>
    obtain ⟨t, fr⟩ := tr
    cases fr with
    | val r =>
      cases r with
      | some d =>
        by_cases hd : d.isEmpty = true
        · rw [List.filterMap_cons_none (show succSel (t, .val (some d)) = none by
              simp [succSel, hd]),
            List.filterMap_cons_some (show failSel (t, .val (some d)) = some t by
              simp [failSel, hd])]
          simp only [List.length_cons]
          omega
        · rw [List.filterMap_cons_some (show succSel (t, .val (some d)) = some d by
              simp [succSel, hd]),
            List.filterMap_cons_none (show failSel (t, .val (some d)) = none by
              simp [failSel, hd])]
          simp only [List.length_cons]
          omega
      | none =>
        rw [List.filterMap_cons_none (show succSel (t, .val none) = none from rfl),
          List.filterMap_cons_some (show failSel (t, .val none) = some t from rfl)]
        simp only [List.length_cons]
        omega
    | exc =>
      rw [List.filterMap_cons_none (show succSel (t, .exc) = none from rfl),
        List.filterMap_cons_some (show failSel (t, .exc) = some t from rfl)]
      simp only [List.length_cons]
      omega

/-- Identifying fields are conserved: the two partitions together carry
exactly the identifying fields of the completed tasks. -/
lemma collect_id_perm (completions : List (TaskRecord × FutureResult))
    (hid : ∀ tr ∈ completions, ∀ r, tr.2 = .val (some r) → r.isEmpty = false →
      idFieldsD r = idFieldsT tr.1) :
    ((completions.filterMap succSel).map idFieldsD ++
      (completions.filterMap failSel).map idFieldsT).Perm
      (completions.map (fun tr => idFieldsT tr.1)) := by
  induction completions with
  | nil => simp
  | cons tr rest ih =>
    have hidr : ∀ tr2 ∈ rest, ∀ r, tr2.2 = .val (some r) → r.isEmpty = false →
        idFieldsD r = idFieldsT tr2.1 :=
      fun tr2 h2 => hid tr2 (List.mem_cons_of_mem _ h2)
    obtain ⟨t, fr⟩ := tr
    cases fr with
    | val r =>
      cases r with
      | some d =>
        by_cases hd : d.isEmpty = true
        · rw [List.filterMap_cons_none (show succSel (t, .val (some d)) = none by
              simp [succSel, hd]),
            List.filterMap_cons_some (show failSel (t, .val (some d)) = some t by
              simp [failSel, hd])]
          simp only [List.map_cons]
          refine List.Perm.trans (List.perm_middle) ?_
          exact (ih hidr).cons _
        · have hide : idFieldsD d = idFieldsT t :=
            hid (t, .val (some d)) (by simp) d rfl (by simpa using hd)
          rw [List.filterMap_cons_some (show succSel (t, .val (some d)) = some d by
              simp [succSel, hd]),
            List.filterMap_cons_none (show failSel (t, .val (some d)) = none by
              simp [failSel, hd])]
          simp only [List.map_cons, List.cons_append]
          rw [hide]
          exact (ih hidr).cons _
      | none =>
        rw [List.filterMap_cons_none (show succSel (t, .val none) = none from rfl),
          List.filterMap_cons_some (show failSel (t, .val none) = some t from rfl)]
        simp only [List.map_cons]
        refine List.Perm.trans (List.perm_middle) ?_
        exact (ih hidr).cons _
    | exc =>
      rw [List.filterMap_cons_none (show succSel (t, .exc) = none from rfl),
        List.filterMap_cons_some (show failSel (t, .exc) = some t from rfl)]
      simp only [List.map_cons]
      refine List.Perm.trans (List.perm_middle) ?_
      exact (ih hidr).cons _

/-- Every `some` first component of `process_repo_task` is the task dict
extended with a version (so nonempty and with unchanged identifying
fields). -/
lemma process_repo_task_some_shape {task : TaskRecord} {testbed : String}
    {repo_cache : String → Option String} {env : Env} {cwd0 : String} {r : Dict}
    (h : (process_repo_task task testbed repo_cache env cwd0).1 = some r) :
    ∃ v, r = dictSet task.toDict "version" v ∧ isFullVersion v.data = true := by
  have hb : (process_repo_task_body task testbed repo_cache env cwd0).1 = .ok r := by
    simp only [process_repo_task] at h
    cases hbody : (process_repo_task_body task testbed repo_cache env cwd0).1 with
    | error e => rw [hbody] at h; simp [Except.toOption] at h
    | ok r2 =>
      rw [hbody] at h
      simp only [Except.toOption, Option.some.injEq] at h
      rw [h]
  exact body_ok_shape hb

lemma dictSet_isEmpty_false (d : Dict) (k v : String) :
    (dictSet d k v).isEmpty = false := by
  cases hd : dictSet d k v with
  | nil => exact absurd hd (dictSet_ne_nil d k v)
  | cons a b => rfl

/-- C2: over any completion order of the (possibly skip-filtered) input
tasks, every processed task contributes to exactly one of the successes and
failures sequences, and the identifying fields of the two outputs together
are exactly those of the processed input set. -/
theorem c2_partition_conserves_inputs (testbed cwd0 : String)
    (repo_cache : String → Option String) (envOf : TaskRecord → Env)
    (crash : TaskRecord → Bool) (tasks : List TaskRecord)
    (localCache skip : Bool) (order : List TaskRecord)
    (hperm : order.Perm (mainTasksAfterSkip tasks localCache skip repo_cache)) :
    (process_repos testbed repo_cache envOf crash cwd0 order).1.length +
      (process_repos testbed repo_cache envOf crash cwd0 order).2.length =
      (mainTasksAfterSkip tasks localCache skip repo_cache).length ∧
    ((process_repos testbed repo_cache envOf crash cwd0 order).1.map idFieldsD ++
      (process_repos testbed repo_cache envOf crash cwd0 order).2.map idFieldsT).Perm
      ((mainTasksAfterSkip tasks localCache skip repo_cache).map idFieldsT) := by
  have heq : process_repos testbed repo_cache envOf crash cwd0 order =
      ((order.map (fun t =>
          (t, submitOutcome testbed repo_cache envOf crash cwd0 t))).filterMap succSel,
       (order.map (fun t =>
          (t, submitOutcome testbed repo_cache envOf crash cwd0 t))).filterMap failSel) :=
    collect_eq _
  have hid : ∀ tr ∈ order.map (fun t =>
        (t, submitOutcome testbed repo_cache envOf crash cwd0 t)),
      ∀ r, tr.2 = .val (some r) → r.isEmpty = false →
        idFieldsD r = idFieldsT tr.1 := by
    intro tr htr r h2 hne
    obtain ⟨t, _, rfl⟩ := List.mem_map.mp htr
    simp only at h2
    unfold submitOutcome at h2
    split at h2
    · exact absurd h2 (by simp)
    · simp only [FutureResult.val.injEq] at h2
      obtain ⟨v, hv, _⟩ := process_repo_task_some_shape h2
      rw [hv]
      unfold idFieldsT
      exact idFieldsD_dictSet_version _ _
  constructor
  · rw [heq]
    simp only
    rw [collect_length, List.length_map]
    exact hperm.length_eq
  · rw [heq]
    simp only
    refine (collect_id_perm _ hid).trans ?_
    have hmm : (order.map (fun t =>
        (t, submitOutcome testbed repo_cache envOf crash cwd0 t))).map
          (fun tr => idFieldsT tr.1) = order.map idFieldsT := by
      rw [List.map_map]
      rfl
    rw [hmm]
    exact hperm.map idFieldsT

/-- Concrete inputs for the C2 witness. -/
def c2wTasks : List TaskRecord :=
  [⟨"a1", "o/r", "c0", []⟩, ⟨"b1", "x/y", "c1", []⟩]

/-- Concrete cache mapping for the C2 witness. -/
def c2wCache : String → Option String :=
  fun rp => if rp = "o/r" then some "/c" else none

/-- Concrete per-task oracle for the C2 witness. -/
def c2wEnv : TaskRecord → Env :=
  fun _ => ⟨false, true, true, true, true, true, true, true, true, true, "v1.2"⟩

/-- Completion order for the C2 witness: submission order of the
skip-filtered batch. -/
def c2wOrder : List TaskRecord := mainTasksAfterSkip c2wTasks true true c2wCache

/-- Witness for C2: one skip-filtered batch processed in submission order. -/
theorem c2_partition_conserves_inputs_witness :
    c2wOrder.Perm (mainTasksAfterSkip c2wTasks true true c2wCache) ∧
    ((process_repos "/tb" c2wCache c2wEnv (fun _ => false) "/start" c2wOrder).1.length +
      (process_repos "/tb" c2wCache c2wEnv (fun _ => false) "/start" c2wOrder).2.length =
      (mainTasksAfterSkip c2wTasks true true c2wCache).length) ∧
    ((process_repos "/tb" c2wCache c2wEnv (fun _ => false) "/start" c2wOrder).1.map idFieldsD ++
      (process_repos "/tb" c2wCache c2wEnv (fun _ => false) "/start" c2wOrder).2.map idFieldsT).Perm
      ((mainTasksAfterSkip c2wTasks true true c2wCache).map idFieldsT) :=
  ⟨List.Perm.refl _,
    (c2_partition_conserves_inputs "/tb" "/start" c2wCache c2wEnv (fun _ => false)
      c2wTasks true true c2wOrder (List.Perm.refl _)).1,
    (c2_partition_conserves_inputs "/tb" "/start" c2wCache c2wEnv (fun _ => false)
      c2wTasks true true c2wOrder (List.Perm.refl _)).2⟩

/-- C4: a task whose worker raises (a crash surfaced at the pool boundary)
is converted into a failure contribution for that task only: every
completion still contributes exactly one output, and every other
non-crashing task's success still lands in the results. -/
theorem c4_crash_converted_to_failure (testbed cwd0 : String)
    (repo_cache : String → Option String) (envOf : TaskRecord → Env)
    (crash : TaskRecord → Bool) (order : List TaskRecord) (t : TaskRecord)
    (hmem : t ∈ order) (hcrash : crash t = true) :
    t ∈ (process_repos testbed repo_cache envOf crash cwd0 order).2 ∧
    (process_repos testbed repo_cache envOf crash cwd0 order).1.length +
      (process_repos testbed repo_cache envOf crash cwd0 order).2.length
      = order.length ∧
    ∀ t2 ∈ order, crash t2 = false →
      ∀ r, (process_repo_task t2 testbed repo_cache (envOf t2) cwd0).1 = some r →
        r ∈ (process_repos testbed repo_cache envOf crash cwd0 order).1 := by
  have heq : process_repos testbed repo_cache envOf crash cwd0 order =
      ((order.map (fun t2 =>
          (t2, submitOutcome testbed repo_cache envOf crash cwd0 t2))).filterMap succSel,
       (order.map (fun t2 =>
          (t2, submitOutcome testbed repo_cache envOf crash cwd0 t2))).filterMap failSel) :=
    collect_eq _
  refine ⟨?_, ?_, ?_⟩
  · rw [heq]
    simp only
    apply List.mem_filterMap.mpr
    refine ⟨(t, submitOutcome testbed repo_cache envOf crash cwd0 t),
      List.mem_map_of_mem _ hmem, ?_⟩
    unfold failSel submitOutcome
    simp [hcrash]
  · rw [heq]
    simp only
    rw [collect_length, List.length_map]
  · intro t2 h2 hc2 r hr
    rw [heq]
    simp only
    apply List.mem_filterMap.mpr
    refine ⟨(t2, submitOutcome testbed repo_cache envOf crash cwd0 t2),
      List.mem_map_of_mem _ h2, ?_⟩
    unfold succSel submitOutcome
    obtain ⟨v, hv, _⟩ := process_repo_task_some_shape hr
    simp only [hc2, if_false, Bool.false_eq_true, hr]
    rw [hv, dictSet_isEmpty_false]
    rfl

/-- Witness for C4: two tasks, the first crashing, the second succeeding. -/
theorem c4_crash_converted_to_failure_witness :
    ((⟨"a1", "o/r", "c0", []⟩ : TaskRecord) ∈
      [(⟨"a1", "o/r", "c0", []⟩ : TaskRecord), ⟨"b1", "o/r", "c1", []⟩]) ∧
    ((fun t2 => decide (t2.instance_id = "a1")) (⟨"a1", "o/r", "c0", []⟩ : TaskRecord)
      = true) ∧
    ((⟨"a1", "o/r", "c0", []⟩ : TaskRecord) ∈
      (process_repos "/tb" (fun rp => if rp = "o/r" then some "/c" else none)
        (fun _ => ⟨false, true, true, true, true, true, true, true, true, true, "v1.2"⟩)
        (fun t2 => decide (t2.instance_id = "a1")) "/start"
        [⟨"a1", "o/r", "c0", []⟩, ⟨"b1", "o/r", "c1", []⟩]).2 ∧
    (process_repos "/tb" (fun rp => if rp = "o/r" then some "/c" else none)
        (fun _ => ⟨false, true, true, true, true, true, true, true, true, true, "v1.2"⟩)
        (fun t2 => decide (t2.instance_id = "a1")) "/start"
        [⟨"a1", "o/r", "c0", []⟩, ⟨"b1", "o/r", "c1", []⟩]).1.length +
      (process_repos "/tb" (fun rp => if rp = "o/r" then some "/c" else none)
        (fun _ => ⟨false, true, true, true, true, true, true, true, true, true, "v1.2"⟩)
        (fun t2 => decide (t2.instance_id = "a1")) "/start"
        [⟨"a1", "o/r", "c0", []⟩, ⟨"b1", "o/r", "c1", []⟩]).2.length = 2 ∧
    ∀ t2 ∈ [(⟨"a1", "o/r", "c0", []⟩ : TaskRecord), ⟨"b1", "o/r", "c1", []⟩],
      (fun t3 => decide (t3.instance_id = "a1")) t2 = false →
      ∀ r, (process_repo_task t2 "/tb"
          (fun rp => if rp = "o/r" then some "/c" else none)
          ((fun _ => ⟨false, true, true, true, true, true, true, true, true, true,
            "v1.2"⟩) t2) "/start").1 = some r →
        r ∈ (process_repos "/tb" (fun rp => if rp = "o/r" then some "/c" else none)
          (fun _ => ⟨false, true, true, true, true, true, true, true, true, true, "v1.2"⟩)
          (fun t3 => decide (t3.instance_id = "a1")) "/start"
          [⟨"a1", "o/r", "c0", []⟩, ⟨"b1", "o/r", "c1", []⟩]).1) :=
  ⟨by decide, by decide,
    c4_crash_converted_to_failure "/tb" "/start"
      (fun rp => if rp = "o/r" then some "/c" else none)
      (fun _ => ⟨false, true, true, true, true, true, true, true, true, true, "v1.2"⟩)
      (fun t2 => decide (t2.instance_id = "a1"))
      [⟨"a1", "o/r", "c0", []⟩, ⟨"b1", "o/r", "c1", []⟩]
      ⟨"a1", "o/r", "c0", []⟩ (by decide) (by decide)⟩

/-- C3: version extraction fails with the unrecognized-version error exactly
when the describe output contains no `<major>.<minor>[.<patch>]` match (the
reading the spec's own `v2.3.1` scenario fixes); the output
`"weird-tag-no-version"` fails that way and its task lands in failures. -/
theorem c3_unrecognized_version_iff (stdout : String) :
    (parseVersionOut stdout = .error .unrecognizedVersion ↔
      ¬ containsMajorMinor (pyStrip stdout).data) ∧
    parseVersionOut "weird-tag-no-version" = .error .unrecognizedVersion ∧
    (process_repos "/tb" (fun rp => if rp = "o/r" then some "/c" else none)
        (fun _ => ⟨false, true, true, true, true, true, true, true, true, true,
          "weird-tag-no-version"⟩)
        (fun _ => false) "/start" [⟨"inst1", "o/r", "c0", []⟩]).1 = [] ∧
    (process_repos "/tb" (fun rp => if rp = "o/r" then some "/c" else none)
        (fun _ => ⟨false, true, true, true, true, true, true, true, true, true,
          "weird-tag-no-version"⟩)
        (fun _ => false) "/start" [⟨"inst1", "o/r", "c0", []⟩]).2 =
      [⟨"inst1", "o/r", "c0", []⟩] := by
  refine ⟨?_, rfl, rfl, rfl⟩
  have hiff := searchVersion_none_iff_not_contains (pyStrip stdout).data
  unfold parseVersionOut
  cases hs : searchVersion (pyStrip stdout).data with
  | some v =>
    constructor
    · intro h
      exact absurd h (by simp)
    · intro hnc
      exact absurd hs (by rw [hiff.mpr hnc]; simp)
  | none =>
    exact ⟨fun _ => hiff.mp hs, fun _ => rfl⟩

/-! ### C10 and C8: output-path derivation and serialization -/

lemma take_append_len {l1 l2 : List Char} (n : Nat) :
    (l1 ++ l2).take (l1.length + n) = l1 ++ l2.take n := by
  induction l1 with
  | nil => simp
  | cons x xs ih =>
    have harith : xs.length + 1 + n = (xs.length + n) + 1 := by omega
    rw [List.cons_append, List.length_cons, harith, List.take_succ_cons, ih]
    rfl

lemma splitext_parts_not_mem {p : String} {c : Char} (h : c ∉ p.data) :
    c ∉ (splitext p).1.data ∧ c ∉ (splitext p).2.data := by
  simp only [splitext]
  cases hr : rlastIdx '.' p.data with
  | none => exact ⟨h, by simp⟩
  | some d =>
    simp only
    split
    · constructor
      · intro hc
        exact h (List.take_subset _ _ hc)
      · intro hc
        exact h (List.drop_subset _ _ hc)
    · exact ⟨h, by simp⟩

lemma gen_no_slash {input suffix2 : String}
    (h1 : '/' ∉ input.data) (h2 : '/' ∉ suffix2.data) :
    '/' ∉ (generate_output_path input suffix2).data := by
  obtain ⟨hb, he⟩ := splitext_parts_not_mem h1
  unfold generate_output_path
  rw [str_data_append, str_data_append]
  intro hc
  rcases List.mem_append.mp hc with hc2 | hc2
  · rcases List.mem_append.mp hc2 with hc3 | hc3
    · exact hb hc3
    · exact h2 hc3
  · exact he hc2

lemma dirname_eq_empty_of_no_slash {p : String} (h : '/' ∉ p.data) :
    dirname p = "" := by
  unfold dirname
  rw [rlastIdx_eq_none_of_not_mem h]

/-- C10: when the derived output path contains no directory separator (the
input artifact was a bare filename), serializing any non-empty results
sequence raises before any output is written, because `save_results`
unconditionally runs `os.makedirs` on the empty dirname. -/
theorem c10_bare_filename_save_raises (dumps : Dict → String)
    (dumpsArr : List Dict → String) (results : List Dict)
    (input suffix2 : String) (hres : results ≠ [])
    (h1 : '/' ∉ input.data) (h2 : '/' ∉ suffix2.data) :
    save_results dumps dumpsArr results (generate_output_path input suffix2)
      = .error .makedirsEmptyDirname := by
  unfold save_results
  rw [dirname_eq_empty_of_no_slash (gen_no_slash h1 h2)]
  simp

/-- Witness for C10 at the bare input filename `tasks.json`. -/
theorem c10_bare_filename_save_raises_witness :
    ([[("k", "w")]] ≠ ([] : List Dict)) ∧
    ('/' ∉ ("tasks.json" : String).data) ∧ ('/' ∉ ("_versions" : String).data) ∧
    save_results (fun _ => "") (fun _ => "") [[("k", "w")]]
      (generate_output_path "tasks.json" "_versions")
      = .error .makedirsEmptyDirname :=
  ⟨by decide, by decide, by decide,
    c10_bare_filename_save_raises (fun _ => "") (fun _ => "") [[("k", "w")]]
      "tasks.json" "_versions" (by decide) (by decide) (by decide)⟩

lemma str_append_assoc (a b c : String) : (a ++ b) ++ c = a ++ (b ++ c) := by
  cases a with
  | mk x =>
    cases b with
    | mk y =>
      cases c with
      | mk z =>
        show (⟨(x ++ y) ++ z⟩ : String) = ⟨x ++ (y ++ z)⟩
        exact congrArg String.mk (List.append_assoc x y z)

/-- `splitext` recombination: base and extension concatenate back to the
input path, so inserting a suffix between them inserts it before the
extension. -/
lemma splitext_recombine (p : String) : (splitext p).1 ++ (splitext p).2 = p := by
  simp only [splitext]
  cases hr : rlastIdx '.' p.data with
  | none =>
    show p ++ "" = p
    cases p with
    | mk x =>
      show (⟨x ++ []⟩ : String) = ⟨x⟩
      exact congrArg String.mk (List.append_nil x)
  | some d =>
    simp only
    split
    · show (⟨p.data.take d ++ p.data.drop d⟩ : String) = p
      rw [List.take_append_drop]
    · show p ++ "" = p
      cases p with
      | mk x =>
        show (⟨x ++ []⟩ : String) = ⟨x⟩
        exact congrArg String.mk (List.append_nil x)

/-- For a dot-free, slash-free, nonempty stem, `splitext (stem ++ E)` splits
inside `E` at `E`'s last dot. -/
lemma splitext_stem (stem E : String) {j : Nat}
    (hs : stem.data ≠ []) (hdot : '.' ∉ stem.data) (hsl : '/' ∉ stem.data)
    (hEsl : '/' ∉ E.data) (hj : rlastIdx '.' E.data = some j) :
    splitext (stem ++ E) = (⟨stem.data ++ E.data.take j⟩, ⟨E.data.drop j⟩) := by
  have hdata : (stem ++ E).data = stem.data ++ E.data := str_data_append stem E
  have hdotIdx : rlastIdx '.' (stem ++ E).data = some (stem.data.length + j) := by
    rw [hdata]; exact rlastIdx_append_some _ hj
  have hsepIdx : rlastIdx '/' (stem ++ E).data = none := by
    rw [hdata]
    apply rlastIdx_eq_none_of_not_mem
    intro hc
    rcases List.mem_append.mp hc with hc | hc
    · exact hsl hc
    · exact hEsl hc
  obtain ⟨a, tl, hst⟩ : ∃ a tl, stem.data = a :: tl := by
    cases hq : stem.data with
    | nil => exact absurd hq hs
    | cons a tl => exact ⟨a, tl, rfl⟩
  have hcond : ((List.range (stem.data.length + j)).any
      (fun f => decide (0 ≤ f) &&
        decide ((stem ++ E).data.getD f '.' ≠ '.'))) = true := by
    apply List.any_eq_true.mpr
    refine ⟨0, List.mem_range.mpr (by rw [hst]; simp), ?_⟩
    have ha : a ≠ '.' := by
      intro he
      exact hdot (by rw [hst, he]; exact List.mem_cons_self _ _)
    have hget : (stem ++ E).data.getD 0 '.' = a := by
      rw [hdata, hst]
      rfl
    rw [hget]
    simp [ha]
  simp only [splitext, hdotIdx, hsepIdx]
  rw [if_pos hcond]
  rw [hdata, take_append_len, drop_append_len]

lemma endsWithL_true_block (x : String) (t : List Char) :
    endsWithL (x.data ++ t) t = true := by
  rw [endsWithL_append (Nat.le_refl _)]
  unfold endsWithL
  simp

/-- A path cannot end with a probe whose final character differs. -/
lemma endsWithL_false_of_getLast_ne {l t : List Char} (ht : t ≠ [])
    (hne : l.getLast? ≠ t.getLast?) : endsWithL l t = false := by
  cases he : endsWithL l t
  · rfl
  · exfalso
    apply hne
    unfold endsWithL at he
    have hdrop : l.drop (l.length - t.length) = t := of_decide_eq_true he
    have hl : l = l.take (l.length - t.length) ++ t := by
      conv_lhs => rw [← List.take_append_drop (l.length - t.length) l]
      rw [hdrop]
    rw [hl, List.getLast?_append_of_ne_nil _ ht]

lemma endsJsonl_app_jsonl (x : String) : endsJsonl (x ++ ".jsonl") = true := by
  unfold endsJsonl
  rw [str_data_append]
  rw [endsWithL_true_block x (".jsonl".data)]
  rfl

lemma endsJsonl_app_jsonl_all (x : String) :
    endsJsonl (x ++ ".jsonl.all") = true := by
  unfold endsJsonl
  rw [str_data_append]
  rw [endsWithL_true_block x (".jsonl.all".data)]
  simp

lemma endsJsonl_app_json (x : String) : endsJsonl (x ++ ".json") = false := by
  have hlast : ((x ++ ".json").data).getLast? = some 'n' := by
    rw [str_data_append, List.getLast?_append_of_ne_nil _ (by decide)]
    rfl
  unfold endsJsonl
  rw [endsWithL_false_of_getLast_ne (by decide) (by rw [hlast]; decide),
      endsWithL_false_of_getLast_ne (by decide) (by rw [hlast]; decide)]
  rfl

lemma splitext_app_jsonl (stem : String) (hs : stem.data ≠ [])
    (hdot : '.' ∉ stem.data) (hsl : '/' ∉ stem.data) :
    splitext (stem ++ ".jsonl") = (stem, ".jsonl") := by
  have h := splitext_stem stem ".jsonl" hs hdot hsl (by decide)
    (show rlastIdx '.' (".jsonl" : String).data = some 0 from rfl)
  rw [h]
  rw [Prod.mk.injEq]
  constructor
  · show (⟨stem.data ++ []⟩ : String) = stem
    rw [List.append_nil]
  · rfl

lemma splitext_app_json (stem : String) (hs : stem.data ≠ [])
    (hdot : '.' ∉ stem.data) (hsl : '/' ∉ stem.data) :
    splitext (stem ++ ".json") = (stem, ".json") := by
  have h := splitext_stem stem ".json" hs hdot hsl (by decide)
    (show rlastIdx '.' (".json" : String).data = some 0 from rfl)
  rw [h]
  rw [Prod.mk.injEq]
  constructor
  · show (⟨stem.data ++ []⟩ : String) = stem
    rw [List.append_nil]
  · rfl

lemma splitext_app_jsonl_all (stem : String) (hs : stem.data ≠ [])
    (hdot : '.' ∉ stem.data) (hsl : '/' ∉ stem.data) :
    splitext (stem ++ ".jsonl.all") = (stem ++ ".jsonl", ".all") := by
  have h := splitext_stem stem ".jsonl.all" hs hdot hsl (by decide)
    (show rlastIdx '.' (".jsonl.all" : String).data = some 6 from rfl)
  rw [h]
  rw [Prod.mk.injEq]
  constructor
  · show (⟨stem.data ++ (".jsonl.all" : String).data.take 6⟩ : String)
      = stem ++ ".jsonl"
    have : ((".jsonl.all" : String).data.take 6) = (".jsonl" : String).data := rfl
    rw [this, ← str_data_append]
  · rfl

/-- C8 counterexample: for the input `tasks.jsonl.all` the input is parsed
line-delimited but both derived artifacts are serialized as single JSON
arrays, so the output serialization style differs from the input's. -/
theorem c8_counterexample :
    inputStyle "tasks.jsonl.all" = .lines ∧
    generate_output_path "tasks.jsonl.all" "_versions" = "tasks.jsonl_versions.all" ∧
    generate_output_path "tasks.jsonl.all" "_failures" = "tasks.jsonl_failures.all" ∧
    outputStyle "tasks.jsonl_versions.all" = .array ∧
    outputStyle "tasks.jsonl_failures.all" = .array ∧
    Style.array ≠ Style.lines :=
  ⟨rfl, rfl, rfl, rfl, rfl, by decide⟩

/-- C8 (amended): output paths are obtained by inserting the `_versions` /
`_failures` suffix between the `splitext` base and extension (which
recombine to the input); each artifact is serialized in the style selected
by its own derived path, which agrees with the input's style for
`stem.jsonl` and `stem.json` inputs but not for `stem.jsonl.all` inputs
(read line-delimited, written as arrays); the failures artifact is written
only when at least one failure exists; and serializing an empty failures
sequence to a path with a nonempty parent directory does not error. -/
theorem c8_output_paths_styles_failures (stem s : String) (dumps : Dict → String)
    (dumpsArr : List Dict → String) (results failures : List Dict)
    (p input : String)
    (hs : stem.data ≠ []) (hdot : '.' ∉ stem.data) (hsl : '/' ∉ stem.data)
    (hsuf : s = "_versions" ∨ s = "_failures") (hp : dirname p ≠ "")
    (hfail : failures ≠ []) :
    ((splitext input).1 ++ (splitext input).2 = input) ∧
    (generate_output_path (stem ++ ".jsonl") s = stem ++ s ++ ".jsonl" ∧
      inputStyle (stem ++ ".jsonl") = .lines ∧
      outputStyle (generate_output_path (stem ++ ".jsonl") s) = .lines) ∧
    (generate_output_path (stem ++ ".json") s = stem ++ s ++ ".json" ∧
      inputStyle (stem ++ ".json") = .array ∧
      outputStyle (generate_output_path (stem ++ ".json") s) = .array) ∧
    (inputStyle (stem ++ ".jsonl.all") = .lines ∧
      outputStyle (generate_output_path (stem ++ ".jsonl.all") s) = .array) ∧
    (mainSaveArtifacts dumps dumpsArr results [] input).length = 1 ∧
    (mainSaveArtifacts dumps dumpsArr results failures input =
      [(generate_output_path input "_versions",
        save_results dumps dumpsArr results (generate_output_path input "_versions")),
       (generate_output_path input "_failures",
        save_results dumps dumpsArr failures (generate_output_path input "_failures"))]) ∧
    (save_results dumps dumpsArr [] p).isOk = true := by
  have hgen1 : generate_output_path (stem ++ ".jsonl") s = stem ++ s ++ ".jsonl" := by
    unfold generate_output_path
    rw [splitext_app_jsonl stem hs hdot hsl]
  have hgen2 : generate_output_path (stem ++ ".json") s = stem ++ s ++ ".json" := by
    unfold generate_output_path
    rw [splitext_app_json stem hs hdot hsl]
  have hgen3 : generate_output_path (stem ++ ".jsonl.all") s
      = (stem ++ ".jsonl") ++ s ++ ".all" := by
    unfold generate_output_path
    rw [splitext_app_jsonl_all stem hs hdot hsl]
  refine ⟨splitext_recombine input, ⟨hgen1, ?_, ?_⟩, ⟨hgen2, ?_, ?_⟩, ⟨?_, ?_⟩,
    ?_, ?_, ?_⟩
  · simp [inputStyle, endsJsonl_app_jsonl]
  · rw [hgen1]
    simp [outputStyle, endsJsonl_app_jsonl]
  · simp [inputStyle, endsJsonl_app_json]
  · rw [hgen2]
    simp [outputStyle, endsJsonl_app_json]
  · simp [inputStyle, endsJsonl_app_jsonl_all]
  · rw [hgen3]
    rw [str_append_assoc]
    rcases hsuf with rfl | rfl
    · unfold outputStyle
      rw [endsJsonl_append (by decide)]
      rfl
    · unfold outputStyle
      rw [endsJsonl_append (by decide)]
      rfl
  · rfl
  · obtain ⟨f0, frest, rfl⟩ : ∃ f0 frest, failures = f0 :: frest := by
      cases failures with
      | nil => exact absurd rfl hfail
      | cons f0 frest => exact ⟨f0, frest, rfl⟩
    rfl
  · unfold save_results
    rw [if_neg hp]
    split <;> rfl

/-- Concrete serializer stubs for the C8 witness. -/
def c8wDumps : Dict → String := fun _ => ""

/-- Concrete array serializer stub for the C8 witness. -/
def c8wDumpsArr : List Dict → String := fun _ => ""

/-- Witness for C8's amended theorem at stem `tasks`, suffix `_versions`. -/
theorem c8_output_paths_styles_failures_witness :
    (("tasks" : String).data ≠ []) ∧ ('.' ∉ ("tasks" : String).data) ∧
    ('/' ∉ ("tasks" : String).data) ∧
    (("_versions" : String) = "_versions" ∨ ("_versions" : String) = "_failures") ∧
    (dirname "o/r.json" ≠ "") ∧ (([[("k", "v")]] : List Dict) ≠ []) ∧
    (((splitext "t.jsonl").1 ++ (splitext "t.jsonl").2 = "t.jsonl") ∧
    (generate_output_path ("tasks" ++ ".jsonl") "_versions"
        = "tasks" ++ "_versions" ++ ".jsonl" ∧
      inputStyle ("tasks" ++ ".jsonl") = .lines ∧
      outputStyle (generate_output_path ("tasks" ++ ".jsonl") "_versions") = .lines) ∧
    (generate_output_path ("tasks" ++ ".json") "_versions"
        = "tasks" ++ "_versions" ++ ".json" ∧
      inputStyle ("tasks" ++ ".json") = .array ∧
      outputStyle (generate_output_path ("tasks" ++ ".json") "_versions") = .array) ∧
    (inputStyle ("tasks" ++ ".jsonl.all") = .lines ∧
      outputStyle (generate_output_path ("tasks" ++ ".jsonl.all") "_versions")
        = .array) ∧
    (mainSaveArtifacts c8wDumps c8wDumpsArr [] [] "t.jsonl").length = 1 ∧
    (mainSaveArtifacts c8wDumps c8wDumpsArr [] [[("k", "v")]] "t.jsonl" =
      [(generate_output_path "t.jsonl" "_versions",
        save_results c8wDumps c8wDumpsArr [] (generate_output_path "t.jsonl" "_versions")),
       (generate_output_path "t.jsonl" "_failures",
        save_results c8wDumps c8wDumpsArr [[("k", "v")]]
          (generate_output_path "t.jsonl" "_failures"))]) ∧
    (save_results c8wDumps c8wDumpsArr [] "o/r.json").isOk = true) :=
  ⟨by decide, by decide, by decide, Or.inl rfl, by decide, by decide,
    c8_output_paths_styles_failures "tasks" "_versions" c8wDumps c8wDumpsArr
      [] [[("k", "v")]] "o/r.json" "t.jsonl" (by decide) (by decide) (by decide)
      (Or.inl rfl) (by decide) (by decide)⟩
